import Mathlib

/-!
Verification of the task-scheduling core of `smart_task_planner_final.py`
(`topo_sort` and `schedule_tasks`), shallowly embedded in Lean.

Modelling conventions:
* Python numbers (floats) are modelled as exact rationals `ℚ`; timezone-aware
  `datetime` instants are rationals counting hours on the local (fixed-offset)
  wall clock, so `d.date()` is `⌊instant / 24⌋ : ℤ` and `timedelta(hours=h)`
  is just `h`.
* Python dicts are association lists `List (key × value)` looked up by first
  match; keys are inserted once per distinct key, which matches dict
  assignment because every key is written at most once in the source.
* Python `set`s of strings are insertion-ordered duplicate-free lists.
* A raised exception is `Option.none`; code that cannot raise is total.
* The `while q:` loop of `topo_sort` is run on fuel equal to the loop
  variant `|q| + Σ max(indeg, 0)`, which strictly decreases per iteration,
  so the fuelled run is the full run.
-/

namespace SmartTaskPlanner

/-- The value found in a task's `"estimated_hours"` field.
`absent` means the key is missing, `pynone` is Python `None` (falsy, and
`float(None)` raises `TypeError`), `num q` is an `int`/`float` value, and
`nonnum` is any other truthy value on which `float(...)` raises. -/
inductive Est where
  | absent
  | pynone
  | num (q : ℚ)
  | nonnum
deriving DecidableEq

/-- A task record as consumed by the scheduling core: `id`, optional
`name`, the `estimated_hours` field, and the `depends_on` list (a missing
or `None` field is the empty list, matching `t.get("depends_on", []) or []`). -/
structure Task where
  id : String
  name : Option String
  est : Est
  depends_on : List String
deriving DecidableEq

/-- `float(t.get("estimated_hours", 2) or 2)` — the conversion used in the
first loop of `schedule_tasks`.  Falsy values (`None`, `0`) fall back to `2`;
a non-numeric truthy value makes `float` raise. -/
def Est.getFloat2 : Est → Option ℚ
  | .absent => some 2
  | .pynone => some 2
  | .num q => if q = 0 then some 2 else some q
  | .nonnum => none

/-- `float(t.get("estimated_hours", 2))` — the conversion used in the
compression block and the final loop of `schedule_tasks` (no `or 2`):
`float(None)` raises `TypeError`. -/
def Est.getFloat1 : Est → Option ℚ
  | .absent => some 2
  | .pynone => none
  | .num q => some q
  | .nonnum => none

/-- The estimates on which `schedule_tasks` cannot raise: the field is
absent or holds a number.  (`None` raises `TypeError` in `float(...)` without
the `or 2` guard; a non-numeric value raises in every `float(...)`.) -/
def Est.numericOk : Est → Prop
  | .absent => True
  | .num _ => True
  | _ => False

instance : DecidablePred Est.numericOk := fun e => by
  cases e <;> simp [Est.numericOk] <;> infer_instance

/-- The defaulted reading of an estimate per the spec's data model
(`estimated_hours` positive real, default 2 if absent/invalid). -/
def estD : Est → ℚ
  | .absent => 2
  | .pynone => 2
  | .num q => q
  | .nonnum => 2

/-- Append a key to a list unless already present (insertion-ordered set add). -/
def insertKey (ks : List String) (k : String) : List String :=
  if k ∈ ks then ks else ks ++ [k]

/-- Duplicate removal keeping first occurrences, in order. -/
def dedupF (l : List String) : List String :=
  l.foldl insertKey []

/-- The key set of the `graph` / `indeg` dicts of `topo_sort`: every task id,
in first-occurrence order (`graph.setdefault(tid, set()); indeg.setdefault(tid, 0)`). -/
def dictKeys (tasks : List Task) : List String :=
  tasks.foldl (fun ks t => insertKey ks t.id) []

/-- The successor set `graph[u]` of `topo_sort`: ids of tasks that declare a
dependency on `u` (edges are only added when `u` is itself a task id, per
`if dep in graph`), with set semantics (first-insertion order, no duplicates). -/
def succsOf (tasks : List Task) (u : String) : List String :=
  if u ∈ dictKeys tasks then
    dedupF ((tasks.filter (fun t => decide (u ∈ t.depends_on))).map Task.id)
  else []

/-- The final value of `indeg[x]` after graph construction: one increment per
occurrence of an in-batch dependency in the `depends_on` list of a task whose
id is `x` (duplicate occurrences count twice, matching the source). -/
def initIndeg (tasks : List Task) (x : String) : ℤ :=
  ((tasks.filter (fun t => t.id == x)).map
    (fun t => ((t.depends_on.filter (fun d => decide (d ∈ dictKeys tasks))).length : ℤ))).sum

/-- The `indeg` dict at the start of the while loop. -/
def ind0 (tasks : List Task) : List (String × ℤ) :=
  (dictKeys tasks).map (fun k => (k, initIndeg tasks k))

/-- The initial queue `[n for n, d in indeg.items() if d == 0]`:
zero-in-degree ids in dict insertion order, i.e. batch input order. -/
def seeds (tasks : List Task) : List String :=
  (dictKeys tasks).filter (fun k => initIndeg tasks k == 0)

/-- Look up a counter in the `indeg` dict.  Keys not present answer `1`
(a harmless nonzero default: the source never reads an absent key, because
every queued or adjacent node is a task id and hence a key). -/
def vlook (ind : List (String × ℤ)) (x : String) : ℤ :=
  ((ind.find? (fun p => p.1 == x)).map Prod.snd).getD 1

/-- Whether `x` is a key of the `indeg` dict. -/
def hasKey (ind : List (String × ℤ)) (x : String) : Bool :=
  (ind.find? (fun p => p.1 == x)).isSome

/-- Ghost counter for the loop invariant: how many already-popped nodes `w`
in `P` have `x` as a successor; each such pop decremented `indeg[x]` once. -/
def cntp (succs : String → List String) (P : List String) (x : String) : ℤ :=
  ((P.filter (fun w => decide (x ∈ succs w))).length : ℤ)

/-- Invariant of the `while q:` loop of `topo_sort`, relative to the ghost
list `P` of nodes already popped (in pop order).  `K` is the key set of the
`graph`/`indeg` dicts and `init` the in-degree map at loop entry. -/
structure KahnInv (succs : String → List String) (K : List String)
    (init : String → ℤ) (P q : List String)
    (ind : List (String × ℤ)) : Prop where
  knd : K.Nodup
  keys : ∀ x, hasKey ind x = true ↔ x ∈ K
  succK : ∀ u x, x ∈ succs u → x ∈ K
  succDom : ∀ u x, x ∈ succs u → u ∈ K
  succN : ∀ u, (succs u).Nodup
  pqnd : (P ++ q).Nodup
  pK : P ⊆ K
  qK : q ⊆ K
  le0 : ∀ x ∈ P ++ q, vlook ind x ≤ 0
  exct : ∀ x ∈ K, vlook ind x = init x - cntp succs P x
  pos : ∀ x ∈ K, x ∉ P ++ q → 1 ≤ vlook ind x
  initge : ∀ x ∈ K,
    ((K.filter (fun w => decide (x ∈ succs w))).length : ℤ) ≤ init x

/-- `indeg[v] -= 1`: decrement the entry for key `v`. -/
def relax (ind : List (String × ℤ)) (v : String) : List (String × ℤ) :=
  ind.map (fun p => if p.1 = v then (p.1, p.2 - 1) else p)

/-- The inner `for v in graph.get(n, [])` loop body of `topo_sort`:
decrement each successor, enqueueing it when its in-degree reaches `0`. -/
def stepSuccs : List String → List (String × ℤ) → List String →
    List (String × ℤ) × List String
  | [], ind, q => (ind, q)
  | v :: vs, ind, q =>
    let ind1 := relax ind v
    let q1 := if (ind1.find? (fun p => p.1 == v)).map Prod.snd = some 0
      then q ++ [v] else q
    stepSuccs vs ind1 q1

/-- Loop variant: Σ over dict entries of `max(value, 0)`. -/
def indWeight (ind : List (String × ℤ)) : ℕ :=
  (ind.map (fun p => p.2.toNat)).sum

/-- The `while q:` loop of `topo_sort`, run on fuel.  `topo_sort` supplies
fuel equal to the loop variant, which per-iteration strictly decreases, so
the fuelled run is the complete run (proved where needed). -/
def kahnRun (succs : String → List String) : ℕ → List String →
    List (String × ℤ) → List String
  | 0, _, _ => []
  | _ + 1, [], _ => []
  | fuel + 1, n :: q, ind =>
    let p := stepSuccs (succs n) ind q
    n :: kahnRun succs fuel p.2 p.1

/-- The edge relation of the dependency graph restricted to in-batch
references: `depRel tasks u v` holds when some task with id `v` declares a
dependency on `u` and `u` is itself a task id of the batch.  The graph is
acyclic exactly when this relation is well-founded. -/
def depRel (tasks : List Task) (u v : String) : Prop :=
  ∃ t ∈ tasks, t.id = v ∧ u ∈ t.depends_on ∧ u ∈ dictKeys tasks

/-- Fuel sufficient to drain the queue: the initial loop variant. -/
def fuelOf (tasks : List Task) : ℕ :=
  (seeds tasks).length + indWeight (ind0 tasks)

/-- The contents of the `order` list when the while loop exits. -/
def kahnOrder (tasks : List Task) : List String :=
  kahnRun (succsOf tasks) (fuelOf tasks) (seeds tasks) (ind0 tasks)

/-- `topo_sort`: the Kahn order followed by the tail-append loop
`for t in tasks: if t["id"] not in order: order.append(t["id"])`. -/
def topo_sort (tasks : List Task) : List String :=
  tasks.foldl (fun ord t => if t.id ∈ ord then ord else ord ++ [t.id])
    (kahnOrder tasks)

/-- `tmap = {t["id"]: t for t in tasks}` looked up at `tid`: the last task
with that id wins, as in a dict comprehension. -/
def tmapFind (tasks : List Task) (tid : String) : Option Task :=
  tasks.reverse.find? (fun t => t.id == tid)

/-- The estimate field of the task with id `tid` as looked up through
`tmap` (absent for ids outside the batch — unreachable in the runs proved
about). -/
def taskEstOf (tasks : List Task) (tid : String) : Est :=
  match tmapFind tasks tid with
  | some t => t.est
  | none => Est.absent

/-- First-match lookup in a rational-valued dict. -/
def alookup (m : List (String × ℚ)) (k : String) : Option ℚ :=
  (m.find? (fun p => p.1 == k)).map Prod.snd

/-- Binary maximum on `ℚ`, written out so that the kernel can evaluate it
(the lattice `max` of `ℚ` does not reduce by `decide`). -/
def qmax (a b : ℚ) : ℚ := if a ≤ b then b else a

/-- Modelled from the spec (§4.2 Step 2): `demand_hours = sum over all tasks
of max(estimated_hours, 1)` — written over the raw batch, for comparison
with the code's sum over the computed order. -/
def demandHoursSpec (tasks : List Task) : ℚ :=
  (tasks.map (fun t => qmax (estD t.est) 1)).sum

/-- `max(gen, default=dflt)`: maximum of a list with a default for empty. -/
def listMax (dflt : ℚ) : List ℚ → ℚ
  | [] => dflt
  | x :: xs => xs.foldl qmax x

/-- The first loop of `schedule_tasks`, building the `dur` and `est` dicts
along `order`:
`h = float(t.get("estimated_hours", 2) or 2); dur[tid] = timedelta(hours=h);`
`est[tid] = max((est[d] + dur[d] for d in deps if d in est), default=start_dt)`.
`none` models a raised exception (`KeyError` on `tmap[tid]`, or `float`
failing on a non-numeric estimate). -/
def buildDE (tasks : List Task) (start : ℚ) :
    List String → List (String × ℚ) → List (String × ℚ) →
    Option (List (String × ℚ) × List (String × ℚ))
  | [], dur, est => some (dur, est)
  | tid :: rest, dur, est =>
    match tmapFind tasks tid with
    | none => none
    | some t =>
      match t.est.getFloat2 with
      | none => none
      | some h =>
        let dur1 := dur ++ [(tid, h)]
        let ends := (t.depends_on.filter (fun d => (alookup est d).isSome)).map
          (fun d => (alookup est d).getD 0 + (alookup dur1 d).getD 0)
        buildDE tasks start rest dur1 (est ++ [(tid, listMax start ends)])

/-- `naive_end = max((est[t] + dur[t] for t in order), default=start_dt)`. -/
def naiveEnd (order : List String) (dur est : List (String × ℚ)) (start : ℚ) : ℚ :=
  listMax start (order.map (fun tid => (alookup est tid).getD 0 + (alookup dur tid).getD 0))

/-- `total_h = sum(max(float(tmap[t].get("estimated_hours", 2)), 1) for t in order)`;
`none` models `float` raising on a `None` or non-numeric estimate. -/
def sumMaxH (tasks : List Task) : List String → Option ℚ
  | [] => some 0
  | tid :: rest =>
    match tmapFind tasks tid with
    | none => none
    | some t =>
      match t.est.getFloat1 with
      | none => none
      | some h =>
        match sumMaxH tasks rest with
        | none => none
        | some s => some (qmax h 1 + s)

/-- `hours_avail = max((deadline - start_dt).days, 1) * work_hours_per_day`.
`timedelta.days` floors the span measured in 24-hour days. -/
def availHours (start dl : ℚ) (whpd : ℤ) : ℤ :=
  max (Int.floor ((dl - start) / 24)) 1 * whpd

/-- The deadline-compression block of `schedule_tasks`: ratio `1.0` without a
deadline or when the naive plan fits; otherwise
`ratio = max(hours_avail / total_h, 0.25)`.  A zero `total_h` is Python's
`ZeroDivisionError`, modelled as `none`. -/
def computeRatio (tasks : List Task) (order : List String)
    (dur est : List (String × ℚ)) (start : ℚ) (deadline : Option ℚ)
    (whpd : ℤ) : Option ℚ :=
  match deadline with
  | none => some 1
  | some dl =>
    if naiveEnd order dur est start > dl then
      match sumMaxH tasks order with
      | none => none
      | some total =>
        if total = 0 then none
        else some (qmax ((availHours start dl whpd : ℚ) / total) (1 / 4))
    else some 1

/-- Round-half-to-even to an integer, the rounding Python's `round` uses
(floats idealized as exact rationals). -/
def rhe (x : ℚ) : ℤ :=
  if x - Int.floor x < 1 / 2 then Int.floor x
  else if x - Int.floor x > 1 / 2 then Int.floor x + 1
  else if Even (Int.floor x) then Int.floor x else Int.floor x + 1

/-- `round(h, 1)`. -/
def round1 (x : ℚ) : ℚ := (rhe (10 * x) : ℚ) / 10

/-- The calendar date of an instant: `d.date()` in the fixed-offset zone. -/
def dateOf (x : ℚ) : ℤ := Int.floor (x / 24)

/-- One output record of `schedule_tasks`.  `sInst` and `eInst` are the loop
locals `s` and `e`; the emitted dict carries their dates and the rounded
duration. -/
structure SchedEntry where
  id : String
  name : String
  sInst : ℚ
  eInst : ℚ
  start_date : ℤ
  end_date : ℤ
  duration_hours : ℚ
deriving DecidableEq

/-- The final loop of `schedule_tasks`:
`h = max(float(t.get("estimated_hours", 2)), 1) * ratio; s = est[tid]; e = s + timedelta(hours=h)`. -/
def finalLoop (tasks : List Task) (est : List (String × ℚ)) (ratio : ℚ) :
    List String → Option (List SchedEntry)
  | [] => some []
  | tid :: rest =>
    match tmapFind tasks tid with
    | none => none
    | some t =>
      match t.est.getFloat1 with
      | none => none
      | some h0 =>
        let h := qmax h0 1 * ratio
        match alookup est tid with
        | none => none
        | some s =>
          match finalLoop tasks est ratio rest with
          | none => none
          | some out =>
            some (⟨tid, t.name.getD tid, s, s + h, dateOf s,
              dateOf (s + h), round1 h⟩ :: out)

/-- `schedule_tasks(tasks, start_dt, deadline, work_hours_per_day)`.
`none` models an uncaught exception escaping the function. -/
def schedule_tasks (tasks : List Task) (start : ℚ) (deadline : Option ℚ)
    (whpd : ℤ) : Option (List SchedEntry) :=
  let order := topo_sort tasks
  match buildDE tasks start order [] [] with
  | none => none
  | some (dur, est) =>
    match computeRatio tasks order dur est start deadline whpd with
    | none => none
    | some ratio => finalLoop tasks est ratio order

/-- Fixture: independent 2-hour task A. -/
def tA : Task := ⟨"A", none, .num 2, []⟩
/-- Fixture: 2-hour task B depending on A. -/
def tB : Task := ⟨"B", none, .num 2, ["A"]⟩
/-- Fixture: 2-hour task C depending on B. -/
def tC : Task := ⟨"C", none, .num 2, ["B"]⟩
/-- Fixture: independent 1-hour task D. -/
def tD : Task := ⟨"D", none, .num 1, []⟩
/-- Fixture: task X of a two-cycle with Y. -/
def tX : Task := ⟨"X", none, .num 2, ["Y"]⟩
/-- Fixture: task Y of a two-cycle with X. -/
def tY : Task := ⟨"Y", none, .num 2, ["X"]⟩

section Sanity

example : topo_sort [tA, tB, tC] = ["A", "B", "C"] := by decide
example : topo_sort [tC, tB, tA] = ["A", "B", "C"] := by decide
example : topo_sort [tX, tY] = ["X", "Y"] := by decide
example : topo_sort [tX, tY, tA] = ["A", "X", "Y"] := by decide

-- Spec §8: chain A→B→C, 2h each, start 0, no deadline.
example :
    schedule_tasks [tA, tB, tC] 0 none 6 =
      some [⟨"A", "A", 0, 2, 0, 0, 2⟩, ⟨"B", "B", 2, 4, 0, 0, 2⟩,
            ⟨"C", "C", 4, 6, 0, 0, 2⟩] := by
  simp [schedule_tasks, topo_sort, kahnOrder, fuelOf, seeds, ind0, dictKeys,
    insertKey, initIndeg, indWeight, kahnRun, stepSuccs, relax, succsOf, dedupF,
    buildDE, tmapFind, alookup, listMax, qmax, naiveEnd, sumMaxH, availHours,
    computeRatio, rhe, round1, dateOf, finalLoop, Est.getFloat2, Est.getFloat1,
    tA, tB, tC, List.find?] <;> norm_num

-- Compression: single 2h task, deadline one hour after start, whpd 6:
-- days = 0, floored to 1; avail = 6, total = 2, ratio = 3 (exceeds 1!).
example :
    (schedule_tasks [tA] 0 (some 1) 6).map (List.map SchedEntry.duration_hours) =
      some [6] := by
  simp [schedule_tasks, topo_sort, kahnOrder, fuelOf, seeds, ind0, dictKeys,
    insertKey, initIndeg, indWeight, kahnRun, stepSuccs, relax, succsOf, dedupF,
    buildDE, tmapFind, alookup, listMax, qmax, naiveEnd, sumMaxH, availHours,
    computeRatio, rhe, round1, dateOf, finalLoop, Est.getFloat2, Est.getFloat1,
    tA, List.find?] <;> norm_num

-- Non-numeric estimate raises (float("...") ValueError).
example : schedule_tasks [⟨"T1", none, .nonnum, []⟩] 0 none 6 = none := by decide

-- Empty batch with a deadline before start: ZeroDivisionError.
example : schedule_tasks [] 1 (some 0) 6 = none := by decide

-- Empty batch, fitting deadline: empty schedule.
example : schedule_tasks [] 0 (some 5) 6 = some [] := by decide

end Sanity

/-! ### Basic lemmas about the executable helpers -/

theorem qmax_eq_max (a b : ℚ) : qmax a b = max a b := (max_def a b).symm

theorem nodup_subset_length {l₁ l₂ : List String} (h₁ : l₁.Nodup)
    (h : l₁ ⊆ l₂) : l₁.length ≤ l₂.length := by
  calc l₁.length = l₁.toFinset.card := (List.toFinset_card_of_nodup h₁).symm
    _ ≤ l₂.toFinset.card := Finset.card_le_card (fun x hx => by
        simpa [List.mem_toFinset] using h (by simpa [List.mem_toFinset] using hx))
    _ ≤ l₂.length := l₂.toFinset_card_le

theorem mem_insertKey {ks : List String} {k x : String} :
    x ∈ insertKey ks k ↔ x ∈ ks ∨ x = k := by
  simp only [insertKey]
  split <;> rename_i h
  · constructor
    · exact fun hx => Or.inl hx
    · rintro (hx | rfl) <;> assumption
  · simp

theorem insertKey_nodup {ks : List String} (h : ks.Nodup) (k : String) :
    (insertKey ks k).Nodup := by
  simp only [insertKey]
  split <;> rename_i hk
  · exact h
  · simpa [List.nodup_append] using ⟨h, hk⟩

theorem foldl_insertKey_mem (l : List String) :
    ∀ (acc : List String) (x : String),
      x ∈ l.foldl insertKey acc ↔ x ∈ acc ∨ x ∈ l := by
  induction l with
  | nil => simp
  | cons a l ih =>
    intro acc x
    simp only [List.foldl_cons, ih, mem_insertKey, List.mem_cons]
    tauto

theorem foldl_insertKey_nodup (l : List String) :
    ∀ (acc : List String), acc.Nodup → (l.foldl insertKey acc).Nodup := by
  induction l with
  | nil => exact fun acc h => h
  | cons a l ih => exact fun acc h => ih _ (insertKey_nodup h a)

theorem foldl_insertKey_eq (l : List String) (hl : l.Nodup) :
    ∀ (acc : List String),
      l.foldl insertKey acc = acc ++ l.filter (fun x => decide (x ∉ acc)) := by
  induction l with
  | nil => simp
  | cons a l ih =>
    intro acc
    have hal : a ∉ l := (List.nodup_cons.mp hl).1
    have hln : l.Nodup := (List.nodup_cons.mp hl).2
    by_cases ha : a ∈ acc
    · have h1 : insertKey acc a = acc := by simp [insertKey, ha]
      rw [List.foldl_cons, h1, ih hln acc, List.filter_cons]
      simp [ha]
    · have h1 : insertKey acc a = acc ++ [a] := by simp [insertKey, ha]
      rw [List.foldl_cons, h1, ih hln (acc ++ [a]), List.filter_cons]
      have hfil : l.filter (fun x => decide (x ∉ acc ++ [a])) =
          l.filter (fun x => decide (x ∉ acc)) := by
        apply List.filter_congr
        intro x hx
        have hxa : x ≠ a := fun heq => hal (heq ▸ hx)
        simp [hxa]
      rw [hfil]
      simp [ha]

theorem dictKeys_nodup (tasks : List Task) : (dictKeys tasks).Nodup := by
  have : dictKeys tasks = (tasks.map Task.id).foldl insertKey [] := by
    simp [dictKeys, List.foldl_map]
  rw [this]
  exact foldl_insertKey_nodup _ _ List.nodup_nil

theorem mem_dictKeys {tasks : List Task} {x : String} :
    x ∈ dictKeys tasks ↔ x ∈ tasks.map Task.id := by
  have : dictKeys tasks = (tasks.map Task.id).foldl insertKey [] := by
    simp [dictKeys, List.foldl_map]
  rw [this, foldl_insertKey_mem]
  simp

theorem dictKeys_eq_map {tasks : List Task} (h : (tasks.map Task.id).Nodup) :
    dictKeys tasks = tasks.map Task.id := by
  have h1 : dictKeys tasks = (tasks.map Task.id).foldl insertKey [] := by
    simp [dictKeys, List.foldl_map]
  rw [h1, foldl_insertKey_eq _ h]
  simp

theorem dedupF_nodup (l : List String) : (dedupF l).Nodup :=
  foldl_insertKey_nodup l [] List.nodup_nil

theorem mem_dedupF {l : List String} {x : String} : x ∈ dedupF l ↔ x ∈ l := by
  rw [dedupF, foldl_insertKey_mem]
  simp

theorem id_mem_dictKeys {tasks : List Task} {t : Task} (h : t ∈ tasks) :
    t.id ∈ dictKeys tasks :=
  mem_dictKeys.mpr (List.mem_map_of_mem Task.id h)

theorem seeds_nodup (tasks : List Task) : (seeds tasks).Nodup :=
  (dictKeys_nodup tasks).filter _

theorem seeds_subset (tasks : List Task) : seeds tasks ⊆ dictKeys tasks :=
  fun _ hx => List.mem_of_mem_filter hx

theorem mem_seeds {tasks : List Task} {x : String} :
    x ∈ seeds tasks ↔ x ∈ dictKeys tasks ∧ initIndeg tasks x = 0 := by
  simp [seeds]

theorem initIndeg_nonneg (tasks : List Task) (x : String) :
    0 ≤ initIndeg tasks x := by
  apply List.sum_nonneg
  intro q hq
  simp only [initIndeg, List.mem_map] at hq
  obtain ⟨t, _, rfl⟩ := hq
  positivity

theorem succsOf_subset (tasks : List Task) (u : String) :
    ∀ x ∈ succsOf tasks u, x ∈ dictKeys tasks := by
  intro x hx
  simp only [succsOf] at hx
  split at hx
  · rw [mem_dedupF] at hx
    simp only [List.mem_map, List.mem_filter] at hx
    obtain ⟨t, ⟨ht, _⟩, rfl⟩ := hx
    exact id_mem_dictKeys ht
  · simp at hx

theorem succsOf_dom {tasks : List Task} {u x : String}
    (hx : x ∈ succsOf tasks u) : u ∈ dictKeys tasks := by
  simp only [succsOf] at hx
  split at hx
  · assumption
  · simp at hx

theorem succsOf_nodup (tasks : List Task) (u : String) :
    (succsOf tasks u).Nodup := by
  simp only [succsOf]
  split
  · exact dedupF_nodup _
  · exact List.nodup_nil

/-! ### Lemmas about the indegree dict and one relaxation pass -/

theorem vlook_cons (p : String × ℤ) (rest : List (String × ℤ)) (x : String) :
    vlook (p :: rest) x = if p.1 == x then p.2 else vlook rest x := by
  by_cases h : p.1 == x <;> simp [vlook, List.find?_cons, h]

theorem hasKey_cons (p : String × ℤ) (rest : List (String × ℤ)) (x : String) :
    hasKey (p :: rest) x = if p.1 == x then true else hasKey rest x := by
  by_cases h : p.1 == x <;> simp [hasKey, List.find?_cons, h]

theorem hasKey_relax (ind : List (String × ℤ)) (v x : String) :
    hasKey (relax ind v) x = hasKey ind x := by
  induction ind with
  | nil => rfl
  | cons p rest ih =>
    have hkey : (if p.1 = v then (p.1, p.2 - 1) else p).1 = p.1 := by
      split <;> rfl
    simp only [relax, List.map_cons]
    rw [hasKey_cons, hasKey_cons, hkey]
    by_cases h : p.1 == x <;> simp [h, ← ih]
    · rfl

theorem vlook_relax_ne {v x : String} (h : x ≠ v) (ind : List (String × ℤ)) :
    vlook (relax ind v) x = vlook ind x := by
  induction ind with
  | nil => rfl
  | cons p rest ih =>
    have hkey : (if p.1 = v then (p.1, p.2 - 1) else p).1 = p.1 := by
      split <;> rfl
    simp only [relax, List.map_cons]
    rw [vlook_cons, vlook_cons, hkey]
    by_cases hpx : p.1 == x
    · have hpx1 : p.1 = x := by simpa using hpx
      have : ¬ p.1 = v := fun hv => h (by rw [← hpx1, hv])
      simp [hpx, this]
    · simpa [hpx] using ih

theorem vlook_relax_self {ind : List (String × ℤ)} {v : String}
    (h : hasKey ind v = true) : vlook (relax ind v) v = vlook ind v - 1 := by
  induction ind with
  | nil => simp [hasKey] at h
  | cons p rest ih =>
    simp only [relax, List.map_cons]
    by_cases hpv : p.1 == v
    · have hv : p.1 = v := by simpa using hpv
      rw [vlook_cons, vlook_cons]
      simp [hv, hpv]
    · have hv : ¬ p.1 = v := fun hv => by simp [hv] at hpv
      rw [vlook_cons, vlook_cons]
      rw [hasKey_cons] at h
      simp only [hpv] at h ⊢
      simp only [hv, if_false]
      rw [if_neg (by simpa using hv), if_neg (by simpa using hv)]
      exact ih (by simpa using h)

theorem vlook_relax_nokey {ind : List (String × ℤ)} {v : String}
    (h : hasKey ind v = false) : vlook (relax ind v) v = vlook ind v := by
  have h1 : (ind.find? (fun p => p.1 == v)) = none := by
    simpa [hasKey, Option.isSome_iff_exists] using h
  have h2 : (relax ind v).find? (fun p => p.1 == v) = none := by
    have := hasKey_relax ind v v
    rw [h] at this
    simpa [hasKey, Option.isSome_iff_exists] using this
  simp [vlook, h1, h2]

theorem vlook_relax_le (ind : List (String × ℤ)) (v x : String) :
    vlook (relax ind v) x ≤ vlook ind x := by
  by_cases hxv : x = v
  · subst hxv
    by_cases hk : hasKey ind x
    · rw [vlook_relax_self hk]; omega
    · rw [vlook_relax_nokey (by simpa using hk)]
  · rw [vlook_relax_ne hxv]

theorem find?_snd_eq_zero {ind : List (String × ℤ)} {v : String} :
    (ind.find? (fun p => p.1 == v)).map Prod.snd = some 0 ↔
      hasKey ind v = true ∧ vlook ind v = 0 := by
  cases h : ind.find? (fun p => p.1 == v) with
  | none => simp [hasKey, vlook, h]
  | some p => simp [hasKey, vlook, h]

/-! ### Lemmas about one pass of the inner successor loop -/

theorem stepSuccs_split (vs : List String) :
    ∀ (ind : List (String × ℤ)) (q : List String),
      stepSuccs vs ind q =
        ((stepSuccs vs ind []).1, q ++ (stepSuccs vs ind []).2) := by
  induction vs with
  | nil => intro ind q; simp [stepSuccs]
  | cons v vs ih =>
    intro ind q
    simp only [stepSuccs]
    by_cases hc : ((relax ind v).find? (fun p => p.1 == v)).map Prod.snd = some 0
    · rw [if_pos hc, if_pos hc, ih (relax ind v) (q ++ [v]),
        ih (relax ind v) ([] ++ [v])]
      simp
    · rw [if_neg hc, if_neg hc, ih (relax ind v) q, ih (relax ind v) []]

theorem stepSuccs_hasKey (vs : List String) :
    ∀ (ind : List (String × ℤ)) (q : List String) (x : String),
      hasKey (stepSuccs vs ind q).1 x = hasKey ind x := by
  induction vs with
  | nil => intro ind q x; simp [stepSuccs]
  | cons v vs ih =>
    intro ind q x
    simp only [stepSuccs]
    split <;> rw [ih] <;> rw [hasKey_relax]

theorem stepSuccs_vlook_le (vs : List String) :
    ∀ (ind : List (String × ℤ)) (q : List String) (x : String),
      vlook (stepSuccs vs ind q).1 x ≤ vlook ind x := by
  induction vs with
  | nil => intro ind q x; simp [stepSuccs]
  | cons v vs ih =>
    intro ind q x
    simp only [stepSuccs]
    have hle := vlook_relax_le ind v x
    split <;> exact le_trans (ih _ _ x) hle

theorem stepSuccs_vlook_notmem (vs : List String) :
    ∀ (ind : List (String × ℤ)) (q : List String) (x : String), x ∉ vs →
      vlook (stepSuccs vs ind q).1 x = vlook ind x := by
  induction vs with
  | nil => intro ind q x _; simp [stepSuccs]
  | cons v vs ih =>
    intro ind q x hx
    have hxv : x ≠ v := fun h => hx (h ▸ List.mem_cons_self v vs)
    have hxvs : x ∉ vs := fun h => hx (List.mem_cons_of_mem v h)
    simp only [stepSuccs]
    split <;> rw [ih _ _ x hxvs, vlook_relax_ne hxv]

theorem stepSuccs_vlook_mem (vs : List String) :
    ∀ (ind : List (String × ℤ)) (q : List String) (x : String), vs.Nodup →
      hasKey ind x = true → x ∈ vs →
      vlook (stepSuccs vs ind q).1 x = vlook ind x - 1 := by
  induction vs with
  | nil => intro ind q x _ _ hx; simp at hx
  | cons v vs ih =>
    intro ind q x hn hk hx
    simp only [stepSuccs]
    rcases List.mem_cons.mp hx with rfl | hxvs
    · have hxvs : x ∉ vs := (List.nodup_cons.mp hn).1
      have hdec := vlook_relax_self hk
      split <;> rw [stepSuccs_vlook_notmem vs _ _ x hxvs, hdec]
    · have hxv : x ≠ v := fun h =>
        (List.nodup_cons.mp hn).1 (h ▸ hxvs)
      have hk1 : hasKey (relax ind v) x = true := by rw [hasKey_relax]; exact hk
      split <;>
        rw [ih _ _ x (List.nodup_cons.mp hn).2 hk1 hxvs, vlook_relax_ne hxv]

theorem stepSuccs_le0_frozen (vs : List String) :
    ∀ (ind : List (String × ℤ)) (q : List String) (x : String),
      vlook ind x ≤ 0 → x ∉ q →
      x ∉ (stepSuccs vs ind q).2 ∧ vlook (stepSuccs vs ind q).1 x ≤ 0 := by
  induction vs with
  | nil => intro ind q x hle hq; simpa [stepSuccs] using ⟨hq, hle⟩
  | cons v vs ih =>
    intro ind q x hle hq
    have hle1 : vlook (relax ind v) x ≤ 0 :=
      le_trans (vlook_relax_le ind v x) hle
    simp only [stepSuccs]
    split <;> rename_i hc
    · -- v was enqueued: its decremented value is 0, so its old value was
      -- positive, hence v ≠ x and x is not in the grown queue.
      have hkv : hasKey (relax ind v) v = true := (find?_snd_eq_zero.mp hc).1
      have hv0 : vlook (relax ind v) v = 0 := (find?_snd_eq_zero.mp hc).2
      have hkv0 : hasKey ind v = true := by rw [← hasKey_relax ind v v]; exact hkv
      have hpre : vlook ind v = 1 := by
        have := vlook_relax_self hkv0
        omega
      have hxv : x ≠ v := by
        intro h
        subst h
        omega
      exact ih _ _ x hle1 (by
        intro hmem
        rcases List.mem_append.mp hmem with h | h
        · exact hq h
        · exact hxv (List.mem_singleton.mp h))
    · exact ih _ _ x hle1 hq

theorem stepSuccs_inv (vs : List String) :
    ∀ (ind : List (String × ℤ)) (q : List String), q.Nodup →
      (∀ x ∈ q, vlook ind x ≤ 0) →
      (stepSuccs vs ind q).2.Nodup ∧
        ∀ x ∈ (stepSuccs vs ind q).2, vlook (stepSuccs vs ind q).1 x ≤ 0 := by
  induction vs with
  | nil => intro ind q hn hle; simpa [stepSuccs] using ⟨hn, hle⟩
  | cons v vs ih =>
    intro ind q hn hle
    simp only [stepSuccs]
    split <;> rename_i hc
    · have hkv : hasKey (relax ind v) v = true := (find?_snd_eq_zero.mp hc).1
      have hv0 : vlook (relax ind v) v = 0 := (find?_snd_eq_zero.mp hc).2
      have hkv0 : hasKey ind v = true := by rw [← hasKey_relax ind v v]; exact hkv
      have hpre : vlook ind v = 1 := by
        have := vlook_relax_self hkv0
        omega
      have hvq : v ∉ q := by
        intro hmem
        have := hle v hmem
        omega
      refine ih _ _ ?_ ?_
      · simpa [List.nodup_append] using ⟨hn, fun hmem => hvq hmem⟩
      · intro x hx
        rcases List.mem_append.mp hx with h | h
        · exact le_trans (vlook_relax_le ind v x) (hle x h)
        · rw [List.mem_singleton.mp h, hv0]
    · refine ih _ _ hn ?_
      intro x hx
      exact le_trans (vlook_relax_le ind v x) (hle x hx)

theorem stepSuccs_app_subset (vs : List String) :
    ∀ (ind : List (String × ℤ)), (stepSuccs vs ind []).2 ⊆ vs := by
  induction vs with
  | nil => intro ind; simp [stepSuccs]
  | cons v vs ih =>
    intro ind
    simp only [stepSuccs]
    split
    · rw [stepSuccs_split]
      intro x hx
      rcases List.mem_append.mp hx with h | h
      · rcases List.mem_append.mp h with h | h
        · simp at h
        · exact List.mem_singleton.mp h ▸ List.mem_cons_self v vs
      · exact List.mem_cons_of_mem v (ih _ h)
    · intro x hx
      exact List.mem_cons_of_mem v (ih _ hx)

theorem stepSuccs_app_char (vs : List String) :
    ∀ (ind : List (String × ℤ)) (q : List String), vs.Nodup →
      (∀ v ∈ vs, hasKey ind v = true) →
      (stepSuccs vs ind q).2 = q ++ vs.filter (fun v => decide (vlook ind v = 1)) := by
  induction vs with
  | nil => intro ind q _ _; simp [stepSuccs]
  | cons v vs ih =>
    intro ind q hn hk
    have hkv : hasKey ind v = true := hk v (List.mem_cons_self v vs)
    have hkv1 : hasKey (relax ind v) v = true := by rw [hasKey_relax]; exact hkv
    have hdec : vlook (relax ind v) v = vlook ind v - 1 := vlook_relax_self hkv
    have hrest : ∀ w ∈ vs, hasKey (relax ind v) w = true := by
      intro w hw
      rw [hasKey_relax]
      exact hk w (List.mem_cons_of_mem v hw)
    have hfil : vs.filter (fun w => decide (vlook (relax ind v) w = 1)) =
        vs.filter (fun w => decide (vlook ind w = 1)) := by
      apply List.filter_congr
      intro w hw
      have hwv : w ≠ v := fun h => (List.nodup_cons.mp hn).1 (h ▸ hw)
      rw [vlook_relax_ne hwv]
    simp only [stepSuccs]
    split <;> rename_i hc
    · have hv0 : vlook (relax ind v) v = 0 := (find?_snd_eq_zero.mp hc).2
      have hv1 : vlook ind v = 1 := by omega
      rw [ih _ _ (List.nodup_cons.mp hn).2 hrest, hfil, List.filter_cons]
      simp [hv1]
    · have hv0 : ¬ vlook (relax ind v) v = 0 := by
        intro h
        exact hc (find?_snd_eq_zero.mpr ⟨hkv1, h⟩)
      have hv1 : ¬ vlook ind v = 1 := by omega
      rw [ih _ _ (List.nodup_cons.mp hn).2 hrest, hfil, List.filter_cons]
      simp [hv1]

theorem indWeight_cons (p : String × ℤ) (rest : List (String × ℤ)) :
    indWeight (p :: rest) = p.2.toNat + indWeight rest := by
  simp [indWeight]

theorem relax_cons (p : String × ℤ) (rest : List (String × ℤ)) (v : String) :
    relax (p :: rest) v = (if p.1 = v then (p.1, p.2 - 1) else p) :: relax rest v :=
  rfl

theorem relax_weight_le (ind : List (String × ℤ)) (v : String) :
    indWeight (relax ind v) ≤ indWeight ind := by
  induction ind with
  | nil => simp [relax, indWeight]
  | cons p rest ih =>
    rw [relax_cons, indWeight_cons, indWeight_cons]
    by_cases h : p.1 = v
    · rw [if_pos h]
      have hsnd : ((p.1, p.2 - 1) : String × ℤ).2 = p.2 - 1 := rfl
      rw [hsnd]
      omega
    · rw [if_neg h]
      omega

theorem relax_weight_pop {ind : List (String × ℤ)} {v : String}
    (hk : hasKey ind v = true) (h1 : vlook ind v = 1) :
    indWeight (relax ind v) + 1 ≤ indWeight ind := by
  induction ind with
  | nil => simp [hasKey] at hk
  | cons p rest ih =>
    by_cases h : p.1 == v
    · have hv : p.1 = v := by simpa using h
      have hval : p.2 = 1 := by
        rw [vlook_cons, if_pos h] at h1
        exact h1
      have hrest := relax_weight_le rest v
      rw [relax_cons, if_pos hv, indWeight_cons, indWeight_cons, hval]
      have hsnd : ((p.1, (1:ℤ) - 1) : String × ℤ).2 = 0 := rfl
      rw [hsnd]
      omega
    · have hv : ¬ p.1 = v := by simpa using h
      rw [hasKey_cons, if_neg (by simpa using h)] at hk
      rw [vlook_cons, if_neg (by simpa using h)] at h1
      rw [relax_cons, if_neg hv, indWeight_cons, indWeight_cons]
      have := ih hk h1
      omega

theorem stepSuccs_weight (vs : List String) :
    ∀ (ind : List (String × ℤ)) (q : List String),
      (stepSuccs vs ind q).2.length + indWeight (stepSuccs vs ind q).1 ≤
        q.length + indWeight ind := by
  induction vs with
  | nil => intro ind q; simp [stepSuccs]
  | cons v vs ih =>
    intro ind q
    simp only [stepSuccs]
    split <;> rename_i hc
    · have hkv : hasKey (relax ind v) v = true := (find?_snd_eq_zero.mp hc).1
      have hv0 : vlook (relax ind v) v = 0 := (find?_snd_eq_zero.mp hc).2
      have hkv0 : hasKey ind v = true := by rw [← hasKey_relax ind v v]; exact hkv
      have hpre : vlook ind v = 1 := by
        have := vlook_relax_self hkv0
        omega
      have hpop := relax_weight_pop hkv0 hpre
      have := ih (relax ind v) (q ++ [v])
      simp only [List.length_append, List.length_singleton] at this
      omega
    · have hle := relax_weight_le ind v
      have := ih (relax ind v) q
      omega

/-! ### Lemmas about the fuelled while loop -/

theorem kahnRun_subset (succs : String → List String) (K : List String)
    (hs : ∀ u x, x ∈ succs u → x ∈ K) :
    ∀ (fuel : ℕ) (q : List String) (ind : List (String × ℤ)), q ⊆ K →
      kahnRun succs fuel q ind ⊆ K := by
  intro fuel
  induction fuel with
  | zero => intro q ind _; simp [kahnRun]
  | succ fuel ih =>
    intro q ind hq
    match q with
    | [] => simp [kahnRun]
    | n :: rest =>
      simp only [kahnRun]
      intro x hx
      rcases List.mem_cons.mp hx with rfl | hx
      · exact hq (List.mem_cons_self x rest)
      · refine ih _ _ ?_ hx
        rw [stepSuccs_split]
        intro y hy
        rcases List.mem_append.mp hy with h | h
        · exact hq (List.mem_cons_of_mem n h)
        · exact hs n y (stepSuccs_app_subset _ _ h)

theorem kahnRun_not_mem (succs : String → List String) :
    ∀ (fuel : ℕ) (q : List String) (ind : List (String × ℤ)) (x : String),
      vlook ind x ≤ 0 → x ∉ q → x ∉ kahnRun succs fuel q ind := by
  intro fuel
  induction fuel with
  | zero => intro q ind x _ _; simp [kahnRun]
  | succ fuel ih =>
    intro q ind x hle hq
    match q with
    | [] => simp [kahnRun]
    | n :: rest =>
      simp only [kahnRun]
      have hxn : x ≠ n := fun h => hq (h ▸ List.mem_cons_self n rest)
      have hxrest : x ∉ rest := fun h => hq (List.mem_cons_of_mem n h)
      have hfro := stepSuccs_le0_frozen (succs n) ind rest x hle hxrest
      intro hx
      rcases List.mem_cons.mp hx with h | h
      · exact hxn h
      · exact ih _ _ x hfro.2 hfro.1 h

theorem kahnRun_nodup (succs : String → List String) :
    ∀ (fuel : ℕ) (q : List String) (ind : List (String × ℤ)), q.Nodup →
      (∀ x ∈ q, vlook ind x ≤ 0) → (kahnRun succs fuel q ind).Nodup := by
  intro fuel
  induction fuel with
  | zero => intro q ind _ _; simp [kahnRun]
  | succ fuel ih =>
    intro q ind hn hle
    match q with
    | [] => simp [kahnRun]
    | n :: rest =>
      simp only [kahnRun]
      have hnr : n ∉ rest := (List.nodup_cons.mp hn).1
      have hrn : rest.Nodup := (List.nodup_cons.mp hn).2
      have hler : ∀ x ∈ rest, vlook ind x ≤ 0 :=
        fun x hx => hle x (List.mem_cons_of_mem n hx)
      have hinv := stepSuccs_inv (succs n) ind rest hrn hler
      refine List.nodup_cons.mpr ⟨?_, ih _ _ hinv.1 hinv.2⟩
      have hn0 : vlook ind n ≤ 0 := hle n (List.mem_cons_self n rest)
      have hfro := stepSuccs_le0_frozen (succs n) ind rest n hn0 hnr
      exact kahnRun_not_mem succs fuel _ _ n hfro.2 hfro.1

theorem kahnRun_sublist (succs : String → List String) :
    ∀ (fuel : ℕ) (q : List String) (ind : List (String × ℤ)),
      q.length + indWeight ind ≤ fuel → q.Sublist (kahnRun succs fuel q ind) := by
  intro fuel
  induction fuel with
  | zero =>
    intro q ind hf
    have : q = [] := List.length_eq_zero.mp (by omega)
    simp [this]
  | succ fuel ih =>
    intro q ind hf
    match q with
    | [] => simp
    | n :: rest =>
      simp only [kahnRun]
      have hw := stepSuccs_weight (succs n) ind rest
      have hb : (stepSuccs (succs n) ind rest).2.length +
          indWeight (stepSuccs (succs n) ind rest).1 ≤ fuel := by
        simp only [List.length_cons] at hf
        omega
      have hsub := ih _ _ hb
      refine List.Sublist.cons₂ n (List.Sublist.trans ?_ hsub)
      have h2 : (stepSuccs (succs n) ind rest).2 =
          rest ++ (stepSuccs (succs n) ind []).2 := by
        rw [stepSuccs_split]
      rw [h2]
      exact List.sublist_append_left rest _

/-! ### The initial loop state -/

theorem vlook_map_key (l : List String) (f : String → ℤ) :
    ∀ x ∈ l, vlook (l.map (fun k => (k, f k))) x = f x := by
  induction l with
  | nil => simp
  | cons a l ih =>
    intro x hx
    rw [List.map_cons, vlook_cons]
    rcases List.mem_cons.mp hx with rfl | hx
    · simp
    · by_cases h : a == x
      · have : a = x := by simpa using h
        subst this
        simp
      · simpa [h] using ih x hx

theorem hasKey_map_key (l : List String) (f : String → ℤ) (x : String) :
    hasKey (l.map (fun k => (k, f k))) x = true ↔ x ∈ l := by
  induction l with
  | nil => simp [hasKey]
  | cons a l ih =>
    rw [List.map_cons, hasKey_cons]
    by_cases h : a == x
    · have : a = x := by simpa using h
      subst this
      simp [h]
    · have hne : ¬ a = x := by simpa using h
      simp only [if_neg h, ih, List.mem_cons]
      constructor
      · exact fun hx => Or.inr hx
      · rintro (rfl | hx)
        · exact absurd rfl hne
        · exact hx

theorem vlook_ind0 {tasks : List Task} {x : String} (h : x ∈ dictKeys tasks) :
    vlook (ind0 tasks) x = initIndeg tasks x :=
  vlook_map_key _ _ x h

theorem hasKey_ind0 {tasks : List Task} {x : String} :
    hasKey (ind0 tasks) x = true ↔ x ∈ dictKeys tasks :=
  hasKey_map_key _ _ x

theorem seeds_vlook_le0 (tasks : List Task) :
    ∀ x ∈ seeds tasks, vlook (ind0 tasks) x ≤ 0 := by
  intro x hx
  obtain ⟨hk, h0⟩ := mem_seeds.mp hx
  rw [vlook_ind0 hk, h0]

theorem kahnOrder_nodup (tasks : List Task) : (kahnOrder tasks).Nodup :=
  kahnRun_nodup _ _ _ _ (seeds_nodup tasks) (seeds_vlook_le0 tasks)

theorem kahnOrder_subset (tasks : List Task) :
    kahnOrder tasks ⊆ dictKeys tasks :=
  kahnRun_subset _ _ (fun u x hx => succsOf_subset tasks u x hx) _ _ _
    (seeds_subset tasks)

theorem seeds_sublist_kahnOrder (tasks : List Task) :
    (seeds tasks).Sublist (kahnOrder tasks) :=
  kahnRun_sublist _ _ _ _ (le_of_eq rfl)

theorem topo_sort_eq_foldl (tasks : List Task) :
    topo_sort tasks = (tasks.map Task.id).foldl insertKey (kahnOrder tasks) := by
  rw [List.foldl_map]
  rfl

theorem topo_sort_structure {tasks : List Task}
    (hids : (tasks.map Task.id).Nodup) :
    topo_sort tasks = kahnOrder tasks ++
      (tasks.map Task.id).filter (fun i => decide (i ∉ kahnOrder tasks)) := by
  rw [topo_sort_eq_foldl, foldl_insertKey_eq _ hids]

theorem topo_sort_nodup (tasks : List Task) : (topo_sort tasks).Nodup := by
  rw [topo_sort_eq_foldl]
  exact foldl_insertKey_nodup _ _ (kahnOrder_nodup tasks)

theorem mem_topo_sort {tasks : List Task} {x : String} :
    x ∈ topo_sort tasks ↔ x ∈ tasks.map Task.id := by
  rw [topo_sort_eq_foldl, foldl_insertKey_mem]
  constructor
  · rintro (hx | hx)
    · exact mem_dictKeys.mp (kahnOrder_subset tasks hx)
    · exact hx
  · exact fun hx => Or.inr hx

theorem topo_sort_perm {tasks : List Task}
    (hids : (tasks.map Task.id).Nodup) :
    (topo_sort tasks).Perm (tasks.map Task.id) :=
  (List.perm_ext_iff_of_nodup (topo_sort_nodup tasks) hids).mpr
    (fun _ => mem_topo_sort)

/-! ### The ghost invariant: decrement accounting, edge order, completeness -/

theorem cntp_append (succs : String → List String) (P Q : List String)
    (x : String) :
    cntp succs (P ++ Q) x = cntp succs P x + cntp succs Q x := by
  simp [cntp, List.filter_append]

theorem cntp_singleton (succs : String → List String) (n x : String) :
    cntp succs [n] x = if x ∈ succs n then 1 else 0 := by
  by_cases h : x ∈ succs n <;> simp [cntp, h]

theorem filter_count_two {P K : List String} {pred : String → Bool}
    {u n : String} (hPn : P.Nodup) (hPK : P ⊆ K) (huK : u ∈ K) (hnK : n ∈ K)
    (hun : u ≠ n) (hu : pred u = true) (hn : pred n = true)
    (huP : u ∉ P) (hnP : n ∉ P) :
    (P.filter pred).length + 2 ≤ (K.filter pred).length := by
  have hsub : ∀ x ∈ P.filter pred, x ∈ P := fun x hx => List.mem_of_mem_filter hx
  have h1 : (u :: n :: P.filter pred).Nodup := by
    refine List.nodup_cons.mpr ⟨?_, List.nodup_cons.mpr ⟨?_, hPn.filter pred⟩⟩
    · intro hx
      rcases List.mem_cons.mp hx with h | h
      · exact hun h
      · exact huP (hsub u h)
    · exact fun hx => hnP (hsub n hx)
  have h2 : (u :: n :: P.filter pred) ⊆ K.filter pred := by
    intro x hx
    rcases List.mem_cons.mp hx with rfl | hx
    · exact List.mem_filter.mpr ⟨huK, hu⟩
    rcases List.mem_cons.mp hx with rfl | hx
    · exact List.mem_filter.mpr ⟨hnK, hn⟩
    · exact List.mem_filter.mpr ⟨hPK (hsub x hx), List.of_mem_filter hx⟩
  have := nodup_subset_length h1 h2
  simpa using this

theorem KahnInv.step {succs : String → List String} {K : List String}
    {init : String → ℤ} {P q : List String} {n : String}
    {ind : List (String × ℤ)}
    (inv : KahnInv succs K init P (n :: q) ind) :
    KahnInv succs K init (P ++ [n]) (stepSuccs (succs n) ind q).2
      (stepSuccs (succs n) ind q).1 := by
  have hvsn : (succs n).Nodup := inv.succN n
  have hvsk : ∀ v ∈ succs n, hasKey ind v = true :=
    fun v hv => (inv.keys v).mpr (inv.succK n v hv)
  have happ : (stepSuccs (succs n) ind q).2 =
      q ++ (succs n).filter (fun v => decide (vlook ind v = 1)) :=
    stepSuccs_app_char (succs n) ind q hvsn hvsk
  set app := (succs n).filter (fun v => decide (vlook ind v = 1)) with happdef
  have happ_sub : ∀ v ∈ app, v ∈ succs n :=
    fun v hv => List.mem_of_mem_filter hv
  have happ_val : ∀ v ∈ app, vlook ind v = 1 := by
    intro v hv
    simpa using List.of_mem_filter hv
  have happ_notPQ : ∀ v ∈ app, v ∉ P ++ n :: q := by
    intro v hv hmem
    have h1 := inv.le0 v hmem
    have h2 := happ_val v hv
    omega
  have hmidn : (n :: (P ++ q)).Nodup := List.nodup_middle.mp inv.pqnd
  have hnPq : n ∉ P ++ q := (List.nodup_cons.mp hmidn).1
  have hPqnd : (P ++ q).Nodup := (List.nodup_cons.mp hmidn).2
  have hnK : n ∈ K := inv.qK (List.mem_cons_self n q)
  have hvalue : ∀ x, x ∈ K →
      vlook (stepSuccs (succs n) ind q).1 x =
        vlook ind x - (if x ∈ succs n then 1 else 0) := by
    intro x hxK
    by_cases hx : x ∈ succs n
    · rw [if_pos hx, stepSuccs_vlook_mem _ _ _ _ hvsn ((inv.keys x).mpr hxK) hx]
    · rw [if_neg hx, stepSuccs_vlook_notmem _ _ _ _ hx]
      omega
  refine ⟨inv.knd, ?_, inv.succK, inv.succDom, inv.succN, ?_, ?_, ?_, ?_, ?_, ?_,
    inv.initge⟩
  · intro x
    rw [stepSuccs_hasKey]
    exact inv.keys x
  · -- Nodup ((P ++ [n]) ++ (q ++ app))
    rw [happ]
    have h1 : (P ++ [n]) ++ (q ++ app) = (P ++ n :: q) ++ app := by
      simp
    rw [h1, List.nodup_append]
    refine ⟨inv.pqnd, hvsn.filter _, ?_⟩
    intro a ha ha2
    exact happ_notPQ a ha2 ha
  · -- P ++ [n] ⊆ K
    intro x hx
    rcases List.mem_append.mp hx with h | h
    · exact inv.pK h
    · exact (List.mem_singleton.mp h) ▸ hnK
  · -- q ++ app ⊆ K
    rw [happ]
    intro x hx
    rcases List.mem_append.mp hx with h | h
    · exact inv.qK (List.mem_cons_of_mem n h)
    · exact inv.succK n x (happ_sub x h)
  · -- le0
    rw [happ]
    intro x hx
    have hle := stepSuccs_vlook_le (succs n) ind q x
    rcases List.mem_append.mp hx with h | h
    · rcases List.mem_append.mp h with h | h
      · have := inv.le0 x (List.mem_append.mpr (Or.inl h))
        omega
      · have hxn : x = n := List.mem_singleton.mp h
        subst hxn
        have := inv.le0 x (List.mem_append.mpr
          (Or.inr (List.mem_cons_self x q)))
        omega
    · rcases List.mem_append.mp h with h | h
      · have := inv.le0 x (List.mem_append.mpr
          (Or.inr (List.mem_cons_of_mem n h)))
        omega
      · have hxs := happ_sub x h
        have h1 := happ_val x h
        rw [stepSuccs_vlook_mem _ _ _ _ hvsn (hvsk x hxs) hxs, h1]
        omega
  · -- exactness
    intro x hxK
    rw [hvalue x hxK, inv.exct x hxK, cntp_append, cntp_singleton]
    omega
  · -- positivity outside P' ++ q'
    intro x hxK hxn
    rw [happ] at hxn
    have hxP : x ∉ P := fun h => hxn (List.mem_append.mpr (Or.inl
      (List.mem_append.mpr (Or.inl h))))
    have hxn' : x ≠ n := fun h => hxn (List.mem_append.mpr (Or.inl
      (List.mem_append.mpr (Or.inr (List.mem_singleton.mpr h)))))
    have hxq : x ∉ q := fun h => hxn (List.mem_append.mpr (Or.inr
      (List.mem_append.mpr (Or.inl h))))
    have hxapp : x ∉ app := fun h => hxn (List.mem_append.mpr (Or.inr
      (List.mem_append.mpr (Or.inr h))))
    have hold : 1 ≤ vlook ind x := by
      refine inv.pos x hxK ?_
      intro hmem
      rcases List.mem_append.mp hmem with h | h
      · exact hxP h
      · rcases List.mem_cons.mp h with h | h
        · exact hxn' h
        · exact hxq h
    rw [hvalue x hxK]
    by_cases hxs : x ∈ succs n
    · have : ¬ vlook ind x = 1 := by
        intro h1
        exact hxapp (List.mem_filter.mpr ⟨hxs, by simpa using h1⟩)
      rw [if_pos hxs]
      omega
    · rw [if_neg hxs]
      omega

theorem kahnRun_edge_before {succs : String → List String} {K : List String}
    {init : String → ℤ} :
    ∀ (fuel : ℕ) (P q : List String) (ind : List (String × ℤ)),
      KahnInv succs K init P q ind →
      ∀ u v, v ∈ succs u → u ∉ P → v ∉ P → v ∉ q →
        v ∈ kahnRun succs fuel q ind →
        u ∈ kahnRun succs fuel q ind ∧
          (kahnRun succs fuel q ind).indexOf u <
            (kahnRun succs fuel q ind).indexOf v := by
  intro fuel
  induction fuel with
  | zero => intro P q ind _ u v _ _ _ _ hv; simp [kahnRun] at hv
  | succ fuel ih =>
    intro P q ind inv u v hsucc huP hvP hvq hv
    match q with
    | [] => simp [kahnRun] at hv
    | n :: rest =>
      simp only [kahnRun] at hv ⊢
      have hvn : v ≠ n := fun h => hvq (h ▸ List.mem_cons_self n rest)
      have hvrest : v ∉ rest := fun h => hvq (List.mem_cons_of_mem n h)
      have hv' : v ∈ kahnRun succs fuel (stepSuccs (succs n) ind rest).2
          (stepSuccs (succs n) ind rest).1 := by
        rcases List.mem_cons.mp hv with h | h
        · exact absurd h hvn
        · exact h
      by_cases hun : u = n
      · subst hun
        constructor
        · exact List.mem_cons_self u _
        · rw [List.indexOf_cons_self, List.indexOf_cons_ne _ (Ne.symm hvn)]
          exact Nat.succ_pos _
      · -- u ≠ n: v still has the pending edge from u, so it is not enqueued
        -- by this pop, and the induction hypothesis applies.
        have hmidn : (n :: (P ++ rest)).Nodup := List.nodup_middle.mp inv.pqnd
        have hnPq : n ∉ P ++ rest := (List.nodup_cons.mp hmidn).1
        have hnP : n ∉ P := fun h => hnPq (List.mem_append.mpr (Or.inl h))
        have hPnd : P.Nodup := ((List.nodup_append.mp
          (List.nodup_cons.mp hmidn).2).1)
        have hvK : v ∈ K := inv.succK u v hsucc
        have huK : u ∈ K := inv.succDom u v hsucc
        have hvapp : v ∉ (stepSuccs (succs n) ind rest).2 := by
          rw [stepSuccs_app_char (succs n) ind rest (inv.succN n)
            (fun w hw => (inv.keys w).mpr (inv.succK n w hw))]
          intro hmem
          rcases List.mem_append.mp hmem with h | h
          · exact hvrest h
          · -- v got enqueued: impossible, its current count is at least 2
            have hvs : v ∈ succs n := List.mem_of_mem_filter h
            have hv1 : vlook ind v = 1 := by simpa using List.of_mem_filter h
            have hcnt : (P.filter (fun w => decide (v ∈ succs w))).length + 2 ≤
                (K.filter (fun w => decide (v ∈ succs w))).length :=
              filter_count_two hPnd inv.pK huK (inv.qK (List.mem_cons_self n rest))
                hun (by simpa using hsucc) (by simpa using hvs) huP hnP
            have hex := inv.exct v hvK
            have hge := inv.initge v hvK
            simp only [cntp] at hex
            omega
        have hstep := inv.step
        have := ih (P ++ [n]) _ _ hstep u v hsucc
          (fun h => by
            rcases List.mem_append.mp h with h | h
            · exact huP h
            · exact hun (List.mem_singleton.mp h))
          (fun h => by
            rcases List.mem_append.mp h with h | h
            · exact hvP h
            · exact hvn (List.mem_singleton.mp h))
          hvapp hv'
        refine ⟨List.mem_cons_of_mem n this.1, ?_⟩
        rw [List.indexOf_cons_ne _ (fun h => hun h.symm),
          List.indexOf_cons_ne _ (Ne.symm hvn)]
        exact Nat.succ_lt_succ this.2

theorem kahnRun_pending {succs : String → List String} {K : List String}
    {init : String → ℤ} :
    ∀ (fuel : ℕ) (P q : List String) (ind : List (String × ℤ)),
      KahnInv succs K init P q ind → q.length + indWeight ind ≤ fuel →
      ∀ v ∈ K, v ∉ P → v ∉ kahnRun succs fuel q ind →
        1 ≤ init v - cntp succs (P ++ kahnRun succs fuel q ind) v := by
  intro fuel
  induction fuel with
  | zero =>
    intro P q ind inv hf v hvK hvP hvo
    have hq : q = [] := List.length_eq_zero.mp (by omega)
    subst hq
    simp only [kahnRun, List.append_nil]
    rw [← inv.exct v hvK]
    exact inv.pos v hvK (by simpa using hvP)
  | succ fuel ih =>
    intro P q ind inv hf v hvK hvP hvo
    match q with
    | [] =>
      simp only [kahnRun, List.append_nil]
      rw [← inv.exct v hvK]
      exact inv.pos v hvK (by simpa using hvP)
    | n :: rest =>
      simp only [kahnRun] at hvo ⊢
      have hvn : v ≠ n := fun h => hvo (h ▸ List.mem_cons_self n _)
      have hvo' : v ∉ kahnRun succs fuel (stepSuccs (succs n) ind rest).2
          (stepSuccs (succs n) ind rest).1 :=
        fun h => hvo (List.mem_cons_of_mem n h)
      have hw := stepSuccs_weight (succs n) ind rest
      have hb : (stepSuccs (succs n) ind rest).2.length +
          indWeight (stepSuccs (succs n) ind rest).1 ≤ fuel := by
        simp only [List.length_cons] at hf
        omega
      have := ih (P ++ [n]) _ _ inv.step hb v hvK
        (fun h => by
          rcases List.mem_append.mp h with h | h
          · exact hvP h
          · exact hvn (List.mem_singleton.mp h))
        hvo'
      have hassoc : (P ++ [n]) ++ kahnRun succs fuel
          (stepSuccs (succs n) ind rest).2 (stepSuccs (succs n) ind rest).1 =
          P ++ n :: kahnRun succs fuel (stepSuccs (succs n) ind rest).2
            (stepSuccs (succs n) ind rest).1 := by
        simp
      rw [hassoc] at this
      exact this

theorem mem_succsOf {tasks : List Task} {u x : String} :
    x ∈ succsOf tasks u ↔
      u ∈ dictKeys tasks ∧ ∃ t ∈ tasks, u ∈ t.depends_on ∧ t.id = x := by
  simp only [succsOf]
  split <;> rename_i hu
  · rw [mem_dedupF]
    simp only [List.mem_map, List.mem_filter, decide_eq_true_eq]
    constructor
    · rintro ⟨t, ⟨ht, hdep⟩, rfl⟩
      exact ⟨hu, t, ht, hdep, rfl⟩
    · rintro ⟨-, t, ht, hdep, rfl⟩
      exact ⟨t, ⟨ht, hdep⟩, rfl⟩
  · simp [hu]

theorem depRel_iff_succsOf {tasks : List Task} {u v : String} :
    depRel tasks u v ↔ v ∈ succsOf tasks u := by
  rw [mem_succsOf, depRel]
  constructor
  · rintro ⟨t, ht, rfl, hdep, hu⟩
    exact ⟨hu, t, ht, hdep, rfl⟩
  · rintro ⟨hu, t, ht, hdep, rfl⟩
    exact ⟨t, ht, rfl, hdep, hu⟩

/-! ### Instantiating the invariant at loop entry -/

theorem id_inj {tasks : List Task} (hids : (tasks.map Task.id).Nodup)
    {s t : Task} (hs : s ∈ tasks) (ht : t ∈ tasks) (h : s.id = t.id) :
    s = t :=
  List.inj_on_of_nodup_map hids hs ht h

theorem tasks_filter_id {tasks : List Task}
    (hids : (tasks.map Task.id).Nodup) {t : Task} (ht : t ∈ tasks) :
    tasks.filter (fun s => s.id == t.id) = [t] := by
  induction tasks with
  | nil => simp at ht
  | cons s rest ih =>
    have hids' : (rest.map Task.id).Nodup := (List.nodup_cons.mp (by
      simpa using hids)).2
    have hsid : s.id ∉ rest.map Task.id := (List.nodup_cons.mp (by
      simpa using hids)).1
    rcases List.mem_cons.mp ht with rfl | ht'
    · have hnil : rest.filter (fun s2 => s2.id == t.id) = [] := by
        apply List.filter_eq_nil.mpr
        intro s2 hs2
        simp only [beq_iff_eq]
        intro heq
        exact hsid (heq ▸ List.mem_map_of_mem Task.id hs2)
      rw [List.filter_cons, if_pos (by simp), hnil]
    · have hne : ¬ s.id = t.id := by
        intro heq
        exact hsid (heq ▸ List.mem_map_of_mem Task.id ht')
      rw [List.filter_cons, if_neg (by simpa using hne)]
      exact ih hids' ht'

theorem initIndeg_eq {tasks : List Task}
    (hids : (tasks.map Task.id).Nodup) {t : Task} (ht : t ∈ tasks) :
    initIndeg tasks t.id =
      ((t.depends_on.filter (fun d => decide (d ∈ dictKeys tasks))).length : ℤ) := by
  rw [initIndeg, tasks_filter_id hids ht]
  simp

theorem initge_holds {tasks : List Task}
    (hids : (tasks.map Task.id).Nodup) :
    ∀ x ∈ dictKeys tasks,
      ((( dictKeys tasks).filter (fun w => decide (x ∈ succsOf tasks w))).length : ℤ) ≤
        initIndeg tasks x := by
  intro x hx
  obtain ⟨t, ht, rfl⟩ := List.mem_map.mp (mem_dictKeys.mp hx)
  rw [initIndeg_eq hids ht]
  have hsub : (dictKeys tasks).filter (fun w => decide (t.id ∈ succsOf tasks w)) ⊆
      t.depends_on.filter (fun d => decide (d ∈ dictKeys tasks)) := by
    intro w hw
    have hwK := List.mem_of_mem_filter hw
    have hws : t.id ∈ succsOf tasks w := by simpa using List.of_mem_filter hw
    obtain ⟨hwK2, s, hs, hdep, hsid⟩ := mem_succsOf.mp hws
    have : s = t := id_inj hids hs ht hsid
    subst this
    exact List.mem_filter.mpr ⟨hdep, by simpa using hwK⟩
  have hnd : ((dictKeys tasks).filter
      (fun w => decide (t.id ∈ succsOf tasks w))).Nodup :=
    (dictKeys_nodup tasks).filter _
  exact_mod_cast nodup_subset_length hnd hsub

theorem kahnInv_init (tasks : List Task)
    (hids : (tasks.map Task.id).Nodup) :
    KahnInv (succsOf tasks) (dictKeys tasks) (initIndeg tasks) []
      (seeds tasks) (ind0 tasks) := by
  refine ⟨dictKeys_nodup tasks, fun x => hasKey_ind0, ?_, ?_, succsOf_nodup tasks,
    ?_, ?_, seeds_subset tasks, ?_, ?_, ?_, initge_holds hids⟩
  · exact fun u x hx => succsOf_subset tasks u x hx
  · exact fun u x hx => succsOf_dom hx
  · simpa using seeds_nodup tasks
  · simp
  · intro x hx
    rw [List.nil_append] at hx
    exact seeds_vlook_le0 tasks x hx
  · intro x hx
    rw [vlook_ind0 hx]
    simp [cntp]
  · intro x hxK hxs
    rw [List.nil_append] at hxs
    rw [vlook_ind0 hxK]
    have h0 : ¬ initIndeg tasks x = 0 := fun h => hxs (mem_seeds.mpr ⟨hxK, h⟩)
    have := initIndeg_nonneg tasks x
    omega

/-! ### Completeness on acyclic graphs and the edge-order property -/

theorem kahnOrder_deps_found {tasks : List Task}
    (hids : (tasks.map Task.id).Nodup) {t : Task} (ht : t ∈ tasks)
    (hto : t.id ∈ kahnOrder tasks) {d : String} (hd : d ∈ t.depends_on)
    (hdK : d ∈ tasks.map Task.id) :
    d ∈ kahnOrder tasks ∧
      (kahnOrder tasks).indexOf d < (kahnOrder tasks).indexOf t.id := by
  have hdK' : d ∈ dictKeys tasks := mem_dictKeys.mpr hdK
  have hedge : t.id ∈ succsOf tasks d :=
    mem_succsOf.mpr ⟨hdK', t, ht, hd, rfl⟩
  have hpos : 1 ≤ initIndeg tasks t.id := by
    rw [initIndeg_eq hids ht]
    have : d ∈ t.depends_on.filter (fun x => decide (x ∈ dictKeys tasks)) :=
      List.mem_filter.mpr ⟨hd, by simpa using hdK'⟩
    have := List.length_pos.mpr (List.ne_nil_of_mem this)
    omega
  have hseed : t.id ∉ seeds tasks := by
    intro hmem
    have := (mem_seeds.mp hmem).2
    omega
  exact kahnRun_edge_before (fuelOf tasks) [] (seeds tasks) (ind0 tasks)
    (kahnInv_init tasks hids) d t.id hedge (by simp) (by simp) hseed hto

theorem kahnOrder_complete {tasks : List Task}
    (hids : (tasks.map Task.id).Nodup)
    (hdeps : ∀ t ∈ tasks, t.depends_on.Nodup)
    (hwf : WellFounded (depRel tasks)) :
    ∀ x ∈ dictKeys tasks, x ∈ kahnOrder tasks := by
  by_contra hcon
  push_neg at hcon
  have hne : {x | x ∈ dictKeys tasks ∧ x ∉ kahnOrder tasks}.Nonempty := by
    obtain ⟨x, hx1, hx2⟩ := hcon
    exact ⟨x, hx1, hx2⟩
  obtain ⟨v, ⟨hvK, hvo⟩, hmin⟩ := hwf.has_min _ hne
  have hpend := kahnRun_pending (fuelOf tasks) [] (seeds tasks) (ind0 tasks)
    (kahnInv_init tasks hids) (le_of_eq rfl) v hvK (by simp) hvo
  rw [List.nil_append] at hpend
  obtain ⟨t, ht, rfl⟩ := List.mem_map.mp (mem_dictKeys.mp hvK)
  -- every in-batch dependency of t that was popped contributes one decrement;
  -- a positive residue means some in-batch dependency was never popped
  by_cases hall : ∀ d ∈ t.depends_on.filter
      (fun x => decide (x ∈ dictKeys tasks)), d ∈ kahnOrder tasks
  · exfalso
    have hIsub : t.depends_on.filter (fun x => decide (x ∈ dictKeys tasks)) ⊆
        (kahnOrder tasks).filter (fun w => decide (t.id ∈ succsOf tasks w)) := by
      intro d hdmem
      have hd1 : d ∈ t.depends_on := List.mem_of_mem_filter hdmem
      have hd2 : d ∈ dictKeys tasks := by simpa using List.of_mem_filter hdmem
      refine List.mem_filter.mpr ⟨hall d hdmem, ?_⟩
      have : t.id ∈ succsOf tasks d := mem_succsOf.mpr ⟨hd2, t, ht, hd1, rfl⟩
      simpa using this
    have hInd : (t.depends_on.filter
        (fun x => decide (x ∈ dictKeys tasks))).Nodup :=
      (hdeps t ht).filter _
    have hlen := nodup_subset_length hInd hIsub
    rw [initIndeg_eq hids ht] at hpend
    simp only [cntp] at hpend
    have hko : kahnRun (succsOf tasks) (fuelOf tasks) (seeds tasks)
        (ind0 tasks) = kahnOrder tasks := rfl
    rw [hko] at hpend
    omega
  · push_neg at hall
    obtain ⟨d, hdmem, hdno⟩ := hall
    have hd1 : d ∈ t.depends_on := List.mem_of_mem_filter hdmem
    have hd2 : d ∈ dictKeys tasks := by simpa using List.of_mem_filter hdmem
    have hrel : depRel tasks d t.id := ⟨t, ht, rfl, hd1, hd2⟩
    exact hmin d ⟨hd2, hdno⟩ hrel

theorem topo_sort_eq_kahnOrder {tasks : List Task}
    (hids : (tasks.map Task.id).Nodup)
    (hdeps : ∀ t ∈ tasks, t.depends_on.Nodup)
    (hwf : WellFounded (depRel tasks)) :
    topo_sort tasks = kahnOrder tasks := by
  rw [topo_sort_structure hids]
  have : (tasks.map Task.id).filter
      (fun i => decide (i ∉ kahnOrder tasks)) = [] := by
    apply List.filter_eq_nil.mpr
    intro x hx
    simp [kahnOrder_complete hids hdeps hwf x (mem_dictKeys.mpr hx)]
  rw [this, List.append_nil]

theorem indexOf_append_left {l₁ l₂ : List String} {x : String} (h : x ∈ l₁) :
    (l₁ ++ l₂).indexOf x = l₁.indexOf x := by
  induction l₁ with
  | nil => simp at h
  | cons a l ih =>
    by_cases hax : a = x
    · subst hax
      simp [List.indexOf_cons_self]
    · rw [List.cons_append, List.indexOf_cons_ne _ hax,
        List.indexOf_cons_ne _ hax]
      rcases List.mem_cons.mp h with h1 | h1
      · exact absurd h1.symm hax
      · rw [ih h1]

theorem pair_sublist_indexOf {l : List String} {u v : String} (hnd : l.Nodup)
    (hs : [u, v].Sublist l) : l.indexOf u < l.indexOf v := by
  induction l with
  | nil => simp at hs
  | cons x l ih =>
    have hxl : x ∉ l := (List.nodup_cons.mp hnd).1
    have hln : l.Nodup := (List.nodup_cons.mp hnd).2
    cases hs with
    | cons₂ a h =>
      have hv : v ∈ l := h.subset (List.mem_singleton.mpr rfl)
      have hvu : v ≠ u := fun heq => hxl (heq ▸ hv)
      rw [List.indexOf_cons_self, List.indexOf_cons_ne _ (fun h2 => hvu h2.symm)]
      exact Nat.succ_pos _
    | cons a h =>
      have hu : u ∈ l := h.subset (List.mem_cons_self u [v])
      have hv : v ∈ l := h.subset (List.mem_cons_of_mem u (List.mem_singleton.mpr rfl))
      have hxu : x ≠ u := fun heq => hxl (heq ▸ hu)
      have hxv : x ≠ v := fun heq => hxl (heq ▸ hv)
      rw [List.indexOf_cons_ne _ hxu, List.indexOf_cons_ne _ hxv]
      exact Nat.succ_lt_succ (ih hln h)

/-! ### Lookup lemmas for the rational-valued dicts -/

theorem alookup_cons (p : String × ℚ) (m : List (String × ℚ)) (k : String) :
    alookup (p :: m) k = if p.1 == k then some p.2 else alookup m k := by
  by_cases h : p.1 == k <;> simp [alookup, List.find?_cons, h]

theorem alookup_isSome {m : List (String × ℚ)} {k : String} :
    (alookup m k).isSome = true ↔ k ∈ m.map Prod.fst := by
  induction m with
  | nil => simp [alookup]
  | cons p m ih =>
    rw [alookup_cons]
    by_cases h : p.1 == k
    · have : p.1 = k := by simpa using h
      simp [h, this]
    · have hne : ¬ p.1 = k := by simpa using h
      rw [if_neg (by simpa using hne), List.map_cons]
      constructor
      · exact fun hx => List.mem_cons_of_mem _ (ih.mp hx)
      · intro hx
        rcases List.mem_cons.mp hx with heq | hx2
        · exact absurd heq.symm hne
        · exact ih.mpr hx2

theorem alookup_append_left {m1 : List (String × ℚ)} {k : String}
    (h : k ∈ m1.map Prod.fst) (m2 : List (String × ℚ)) :
    alookup (m1 ++ m2) k = alookup m1 k := by
  induction m1 with
  | nil => simp at h
  | cons p m ih =>
    rw [List.cons_append, alookup_cons, alookup_cons]
    by_cases hp : p.1 == k
    · simp [hp]
    · have hne : ¬ p.1 = k := by simpa using hp
      rw [if_neg (by simpa using hne), if_neg (by simpa using hne)]
      refine ih ?_
      rw [List.map_cons] at h
      rcases List.mem_cons.mp h with heq | hx
      · exact absurd heq.symm hne
      · exact hx

theorem alookup_append_right {m1 : List (String × ℚ)} {k : String}
    (h : k ∉ m1.map Prod.fst) (m2 : List (String × ℚ)) :
    alookup (m1 ++ m2) k = alookup m2 k := by
  induction m1 with
  | nil => simp
  | cons p m ih =>
    rw [List.cons_append, alookup_cons]
    have hne : ¬ p.1 = k := fun heq => h (by simp [heq])
    rw [if_neg (by simpa using hne)]
    exact ih (fun hx => h (by
      rw [List.map_cons]
      exact List.mem_cons_of_mem _ hx))

theorem alookup_head (k : String) (v : ℚ) (m : List (String × ℚ)) :
    alookup ((k, v) :: m) k = some v := by
  rw [alookup_cons]
  simp

theorem alookup_isSome_decide (m : List (String × ℚ)) (k : String) :
    (alookup m k).isSome = decide (k ∈ m.map Prod.fst) := by
  by_cases h : k ∈ m.map Prod.fst
  · simp [alookup_isSome.mpr h, h]
  · have h2 : ¬ (alookup m k).isSome = true := fun hx => h (alookup_isSome.mp hx)
    rw [Bool.not_eq_true] at h2
    rw [h2, decide_eq_false h]

theorem buildDE_keys (tasks : List Task) (start : ℚ) :
    ∀ (l : List String) (d0 e0 : List (String × ℚ))
      (res : List (String × ℚ) × List (String × ℚ)),
      buildDE tasks start l d0 e0 = some res →
      res.1.map Prod.fst = d0.map Prod.fst ++ l ∧
      res.2.map Prod.fst = e0.map Prod.fst ++ l := by
  intro l
  induction l with
  | nil =>
    intro d0 e0 res h
    simp only [buildDE] at h
    cases h
    simp
  | cons tid rest ih =>
    intro d0 e0 res h
    simp only [buildDE] at h
    split at h
    · simp at h
    · split at h
      · simp at h
      · obtain ⟨h1, h2⟩ := ih _ _ _ h
        constructor
        · rw [h1]
          simp
        · rw [h2]
          simp

theorem buildDE_persist (tasks : List Task) (start : ℚ) :
    ∀ (l : List String) (d0 e0 : List (String × ℚ))
      (res : List (String × ℚ) × List (String × ℚ)),
      buildDE tasks start l d0 e0 = some res →
      (∀ k ∈ e0.map Prod.fst, alookup res.2 k = alookup e0 k) ∧
      (∀ k ∈ d0.map Prod.fst, alookup res.1 k = alookup d0 k) := by
  intro l
  induction l with
  | nil =>
    intro d0 e0 res h
    simp only [buildDE] at h
    cases h
    exact ⟨fun k _ => rfl, fun k _ => rfl⟩
  | cons tid rest ih =>
    intro d0 e0 res h
    simp only [buildDE] at h
    split at h
    · simp at h
    · split at h
      · simp at h
      · obtain ⟨h1, h2⟩ := ih _ _ _ h
        constructor
        · intro k hk
          rw [h1 k (by rw [List.map_append]; exact List.mem_append_left _ hk)]
          exact alookup_append_left hk _
        · intro k hk
          rw [h2 k (by rw [List.map_append]; exact List.mem_append_left _ hk)]
          exact alookup_append_left hk _

theorem buildDE_index (tasks : List Task) (start : ℚ) :
    ∀ (l : List String) (d0 e0 : List (String × ℚ))
      (res : List (String × ℚ) × List (String × ℚ)),
      buildDE tasks start l d0 e0 = some res →
      d0.map Prod.fst = e0.map Prod.fst →
      (e0.map Prod.fst ++ l).Nodup →
      ∀ (i : ℕ) (hi : i < l.length),
        ∃ t h, tmapFind tasks (l.get ⟨i, hi⟩) = some t ∧
          t.est.getFloat2 = some h ∧
          alookup res.1 (l.get ⟨i, hi⟩) = some h ∧
          alookup res.2 (l.get ⟨i, hi⟩) = some (listMax start
            ((t.depends_on.filter
              (fun d2 => decide (d2 ∈ e0.map Prod.fst ++ l.take i))).map
              (fun d2 => (alookup res.2 d2).getD 0 + (alookup res.1 d2).getD 0))) := by
  intro l
  induction l with
  | nil =>
    intro d0 e0 res h hsync hnd i hi
    simp at hi
  | cons tid rest ih =>
    intro d0 e0 res h hsync hnd i hi
    simp only [buildDE] at h
    split at h
    · simp at h
    · rename_i t htm
      split at h
      · simp at h
      · rename_i hq hgf
        set dur1 := d0 ++ [(tid, hq)] with hdur1
        set ev := listMax start
          ((t.depends_on.filter (fun d2 => (alookup e0 d2).isSome)).map
            (fun d2 => (alookup e0 d2).getD 0 + (alookup dur1 d2).getD 0))
          with hev
        have hrec : buildDE tasks start rest dur1 (e0 ++ [(tid, ev)]) =
            some res := h
        have htid_notin : tid ∉ e0.map Prod.fst := by
          have := (List.nodup_append.mp hnd).2.2
          exact fun hx => this hx (List.mem_cons_self tid rest)
        have htid_notin_d : tid ∉ d0.map Prod.fst := by
          rw [hsync]
          exact htid_notin
        have hpers := buildDE_persist tasks start rest _ _ _ hrec
        match i with
        | 0 =>
          have hget : (tid :: rest).get ⟨0, hi⟩ = tid := rfl
          rw [hget]
          refine ⟨t, hq, htm, hgf, ?_, ?_⟩
          · have hmem : tid ∈ dur1.map Prod.fst := by
              rw [hdur1]
              simp
            rw [hpers.2 tid hmem, hdur1, alookup_append_right htid_notin_d,
              alookup_head]
          · have hmem : tid ∈ (e0 ++ [(tid, ev)]).map Prod.fst := by
              simp
            rw [hpers.1 tid hmem, alookup_append_right htid_notin,
              alookup_head, hev]
            congr 1
            -- the ends list computed from the running dicts equals the one
            -- computed from the final dicts
            have hfil : t.depends_on.filter
                (fun d2 => (alookup e0 d2).isSome) =
                t.depends_on.filter
                  (fun d2 => decide (d2 ∈ e0.map Prod.fst ++
                    (tid :: rest).take 0)) := by
              apply List.filter_congr
              intro d2 _
              rw [alookup_isSome_decide]
              simp
            rw [← hfil]
            congr 1
            apply List.map_congr_left
            intro d2 hd2
            have hd2mem : d2 ∈ e0.map Prod.fst := by
              have := List.of_mem_filter hd2
              exact alookup_isSome.mp this
            have hd2memd : d2 ∈ d0.map Prod.fst := by
              rw [hsync]
              exact hd2mem
            have hd2mem1 : d2 ∈ (e0 ++ [(tid, ev)]).map Prod.fst := by
              rw [List.map_append]
              exact List.mem_append_left _ hd2mem
            have hd2memd1 : d2 ∈ dur1.map Prod.fst := by
              rw [hdur1, List.map_append]
              exact List.mem_append_left _ hd2memd
            rw [hpers.1 d2 hd2mem1, hpers.2 d2 hd2memd1,
              alookup_append_left hd2mem, hdur1, alookup_append_left hd2memd]
        | Nat.succ j =>
          have hj : j < rest.length := by
            simp only [List.length_cons] at hi
            omega
          have hget : (tid :: rest).get ⟨j + 1, hi⟩ = rest.get ⟨j, hj⟩ := rfl
          rw [hget]
          have hsync1 : dur1.map Prod.fst =
              (e0 ++ [(tid, ev)]).map Prod.fst := by
            rw [hdur1, List.map_append, List.map_append, hsync]
            rfl
          have hnd1 : ((e0 ++ [(tid, ev)]).map Prod.fst ++ rest).Nodup := by
            rw [List.map_append]
            have heq : (e0.map Prod.fst ++ [(tid, ev)].map Prod.fst)
                ++ rest = e0.map Prod.fst ++ tid :: rest := by
              simp
            rw [heq]
            exact hnd
          obtain ⟨t2, h2, ht2, hh2, hd2, he2⟩ := ih _ _ _ hrec hsync1 hnd1 j hj
          refine ⟨t2, h2, ht2, hh2, hd2, ?_⟩
          rw [he2]
          have heq : (e0 ++ [(tid, ev)]).map Prod.fst ++
              rest.take j = e0.map Prod.fst ++ (tid :: rest).take (j + 1) := by
            rw [List.map_append, List.take_succ_cons]
            simp
          have hfil2 : t2.depends_on.filter
              (fun d2 => decide (d2 ∈ (e0 ++ [(tid, ev)]).map Prod.fst ++
                rest.take j)) =
              t2.depends_on.filter
                (fun d2 => decide (d2 ∈ e0.map Prod.fst ++
                  (tid :: rest).take (j + 1))) := by
            apply List.filter_congr
            intro d2 _
            rw [heq]
          rw [hfil2]

theorem find?_of_unique {l : List Task} (hids : (l.map Task.id).Nodup)
    {t : Task} (ht : t ∈ l) : l.find? (fun s => s.id == t.id) = some t := by
  induction l with
  | nil => simp at ht
  | cons s rest ih =>
    have hids' : (rest.map Task.id).Nodup := (List.nodup_cons.mp (by
      simpa using hids)).2
    have hsid : s.id ∉ rest.map Task.id := (List.nodup_cons.mp (by
      simpa using hids)).1
    rcases List.mem_cons.mp ht with rfl | ht'
    · rw [List.find?_cons_of_pos _ (by simp)]
    · have hne : ¬ s.id = t.id := by
        intro heq
        exact hsid (heq ▸ List.mem_map_of_mem Task.id ht')
      rw [List.find?_cons_of_neg _ (by simpa using hne)]
      exact ih hids' ht'

theorem tmapFind_nodup {tasks : List Task}
    (hids : (tasks.map Task.id).Nodup) {t : Task} (ht : t ∈ tasks) :
    tmapFind tasks t.id = some t := by
  rw [tmapFind]
  apply find?_of_unique
  · rw [List.map_reverse]
    exact List.nodup_reverse.mpr hids
  · exact List.mem_reverse.mpr ht

theorem mem_take_of_indexOf_lt {l : List String} {d : String} :
    ∀ {i : ℕ}, d ∈ l → l.indexOf d < i → d ∈ l.take i := by
  induction l with
  | nil => intro i hd; simp at hd
  | cons x l ih =>
    intro i hd hlt
    match i with
    | 0 => exact absurd hlt (Nat.not_lt_zero _)
    | Nat.succ j =>
      by_cases hx : x = d
      · subst hx
        rw [List.take_succ_cons]
        exact List.mem_cons_self x _
      · rw [List.indexOf_cons_ne _ hx] at hlt
        have hd' : d ∈ l := by
          rcases List.mem_cons.mp hd with heq | hmem
          · exact absurd heq.symm hx
          · exact hmem
        rw [List.take_succ_cons]
        exact List.mem_cons_of_mem x (ih hd' (by omega))

/-- The first loop of `schedule_tasks`, run over the full `topo_sort` order
from empty dicts: at every position the stored earliest start is the maximum
end-instant over exactly those dependencies that occur strictly earlier in
the order. -/
theorem buildDE_run {tasks : List Task} {start : ℚ}
    {res : List (String × ℚ) × List (String × ℚ)}
    (h : buildDE tasks start (topo_sort tasks) [] [] = some res) :
    ∀ (i : ℕ) (hi : i < (topo_sort tasks).length),
      ∃ t hq, tmapFind tasks ((topo_sort tasks).get ⟨i, hi⟩) = some t ∧
        t.est.getFloat2 = some hq ∧
        alookup res.1 ((topo_sort tasks).get ⟨i, hi⟩) = some hq ∧
        alookup res.2 ((topo_sort tasks).get ⟨i, hi⟩) = some (listMax start
          ((t.depends_on.filter
            (fun d => decide (d ∈ (topo_sort tasks).take i))).map
            (fun d => (alookup res.2 d).getD 0 + (alookup res.1 d).getD 0))) := by
  intro i hi
  have hind := buildDE_index tasks start (topo_sort tasks) [] [] res h rfl
    (by simpa using topo_sort_nodup tasks) i hi
  simpa using hind

theorem buildDE_run_keys {tasks : List Task} {start : ℚ}
    {res : List (String × ℚ) × List (String × ℚ)}
    (h : buildDE tasks start (topo_sort tasks) [] [] = some res) :
    res.1.map Prod.fst = topo_sort tasks ∧
    res.2.map Prod.fst = topo_sort tasks := by
  have := buildDE_keys tasks start (topo_sort tasks) [] [] res h
  simpa using this

/-! ### Claim theorems about the ordering engine -/

/-- C1: for every input batch — including batches whose in-batch dependency
graph contains cycles or dangling references — `topo_sort` (the spec's
`Order`) terminates (it is a total Lean function) and returns a sequence
containing every input task id exactly once: under the data-model invariant
that ids are unique within a batch, the output is a permutation of the
batch's id list, and it consists of the Kahn-loop output followed by every
never-reached id, kept in original batch order. -/
theorem C1_order_perm_and_tail (tasks : List Task)
    (hids : (tasks.map Task.id).Nodup) :
    (topo_sort tasks).Perm (tasks.map Task.id) ∧
    topo_sort tasks = kahnOrder tasks ++
      (tasks.map Task.id).filter (fun i => decide (i ∉ kahnOrder tasks)) :=
  ⟨topo_sort_perm hids, topo_sort_structure hids⟩

/-- Witness for C1 on the cyclic pair X⇄Y plus a free task A: the hypothesis
holds and the theorem applies. -/
theorem C1_order_perm_and_tail_witness :
    ([tX, tY, tA].map Task.id).Nodup ∧
    ((topo_sort [tX, tY, tA]).Perm ([tX, tY, tA].map Task.id) ∧
      topo_sort [tX, tY, tA] = kahnOrder [tX, tY, tA] ++
        ([tX, tY, tA].map Task.id).filter
          (fun i => decide (i ∉ kahnOrder [tX, tY, tA]))) :=
  ⟨by decide, C1_order_perm_and_tail [tX, tY, tA] (by decide)⟩

/-- C2: when the in-batch dependency graph is acyclic (its edge relation is
well-founded) then — with unique ids and set-valued `depends_on`, as the data
model requires — every task's position in `topo_sort` is strictly after the
position of each of its declared dependencies that is present in the batch. -/
theorem C2_acyclic_respects_deps (tasks : List Task)
    (hids : (tasks.map Task.id).Nodup)
    (hdeps : ∀ t ∈ tasks, t.depends_on.Nodup)
    (hwf : WellFounded (depRel tasks)) :
    ∀ t ∈ tasks, ∀ d ∈ t.depends_on, d ∈ tasks.map Task.id →
      (topo_sort tasks).indexOf d < (topo_sort tasks).indexOf t.id := by
  intro t ht d hd hdK
  have hteq := topo_sort_eq_kahnOrder hids hdeps hwf
  have htid : t.id ∈ kahnOrder tasks :=
    kahnOrder_complete hids hdeps hwf t.id (id_mem_dictKeys ht)
  have hfound := kahnOrder_deps_found hids ht htid hd hdK
  rw [hteq]
  exact hfound.2

/-- Witness for C2 on the chain A ← B: all hypotheses hold (well-foundedness
via the rank A ↦ 0, B ↦ 1) and B is placed after A. -/
theorem C2_acyclic_respects_deps_witness :
    (([tA, tB].map Task.id).Nodup ∧ ∀ t ∈ [tA, tB], t.depends_on.Nodup) ∧
      (topo_sort [tA, tB]).indexOf "A" < (topo_sort [tA, tB]).indexOf "B" := by
  have hwf : WellFounded (depRel [tA, tB]) := by
    have hsub : Subrelation (depRel [tA, tB])
        (InvImage Nat.lt (fun s => if s = "B" then 1 else 0)) := by
      intro u v h
      obtain ⟨t, htm, rfl, hdep, hu⟩ := h
      rcases List.mem_cons.mp htm with rfl | htm
      · simp [tA] at hdep
      rcases List.mem_cons.mp htm with rfl | htm
      · have hu1 : u = "A" := by simpa [tB] using hdep
        subst hu1
        simp [InvImage, tB]
      · simp at htm
    exact Subrelation.wf hsub (InvImage.wf _ Nat.lt_wfRel.wf)
  refine ⟨⟨by decide, by decide⟩, ?_⟩
  have h := C2_acyclic_respects_deps [tA, tB] (by decide) (by decide) hwf
    tB (by decide) "A" (by decide) (by decide)
  simpa [tB] using h

/-- C8: the queue is seeded with the zero-in-degree ids in batch input order
and processed first-in-first-out, so any two initially-ready tasks (no
in-batch dependencies) appear in the output in their batch order; the
embedded `topo_sort` is a pure function of the batch, so the order for a
fixed input is deterministic. -/
theorem C8_fifo_batch_order (tasks : List Task)
    (hids : (tasks.map Task.id).Nodup) {tu tv : Task}
    (htu : tu ∈ tasks) (htv : tv ∈ tasks)
    (horder : [tu.id, tv.id].Sublist (tasks.map Task.id))
    (hu0 : tu.depends_on.filter (fun d => decide (d ∈ tasks.map Task.id)) = [])
    (hv0 : tv.depends_on.filter (fun d => decide (d ∈ tasks.map Task.id)) = []) :
    (topo_sort tasks).indexOf tu.id < (topo_sort tasks).indexOf tv.id := by
  have hKeq : dictKeys tasks = tasks.map Task.id := dictKeys_eq_map hids
  have hu_init : initIndeg tasks tu.id = 0 := by
    rw [initIndeg_eq hids htu, hKeq, hu0]
    rfl
  have hv_init : initIndeg tasks tv.id = 0 := by
    rw [initIndeg_eq hids htv, hKeq, hv0]
    rfl
  have hpair : [tu.id, tv.id].Sublist (seeds tasks) := by
    have h1 : [tu.id, tv.id].Sublist (dictKeys tasks) := by
      rw [hKeq]
      exact horder
    have h2 := h1.filter (fun k => initIndeg tasks k == 0)
    have h3 : [tu.id, tv.id].filter (fun k => initIndeg tasks k == 0) =
        [tu.id, tv.id] := by
      simp [List.filter_cons, hu_init, hv_init]
    rw [h3] at h2
    exact h2
  have hko : [tu.id, tv.id].Sublist (kahnOrder tasks) :=
    hpair.trans (seeds_sublist_kahnOrder tasks)
  have htopo : [tu.id, tv.id].Sublist (topo_sort tasks) := by
    rw [topo_sort_structure hids]
    exact hko.trans (List.sublist_append_left _ _)
  exact pair_sublist_indexOf (topo_sort_nodup tasks) htopo

/-- C10: in the earliest-start computation of `schedule_tasks`, a declared
dependency contributes to a task's earliest start exactly when it occurs
strictly earlier in the computed order (the state of the `est` dict when
position `i` is processed holds precisely the first `i` order entries): the
stored value at position `i` is the maximum end-instant over the
dependencies lying in `take i` of the order — so a cycle-tail task ignores
dependencies placed later in the order while dependencies placed earlier,
including earlier tail entries, still shift its start. -/
theorem C10_contributes_iff_earlier (tasks : List Task) (start : ℚ)
    (res : List (String × ℚ) × List (String × ℚ))
    (hres : buildDE tasks start (topo_sort tasks) [] [] = some res)
    (i : ℕ) (hi : i < (topo_sort tasks).length) :
    ∃ t hq, tmapFind tasks ((topo_sort tasks).get ⟨i, hi⟩) = some t ∧
      t.est.getFloat2 = some hq ∧
      alookup res.1 ((topo_sort tasks).get ⟨i, hi⟩) = some hq ∧
      alookup res.2 ((topo_sort tasks).get ⟨i, hi⟩) = some (listMax start
        ((t.depends_on.filter
          (fun d => decide (d ∈ (topo_sort tasks).take i))).map
          (fun d => (alookup res.2 d).getD 0 + (alookup res.1 d).getD 0))) :=
  buildDE_run hres i hi

/-- Witness for C10 on the cyclic pair X⇄Y: the run succeeds and the theorem
applies at position 0. -/
theorem C10_contributes_iff_earlier_witness :
    (buildDE [tX, tY] 0 (topo_sort [tX, tY]) [] [] =
        some ([("X", 2), ("Y", 2)], [("X", 0), ("Y", 2)]) ∧
      0 < (topo_sort [tX, tY]).length) ∧
    ∃ t hq, tmapFind [tX, tY] ((topo_sort [tX, tY]).get ⟨0, by decide⟩) = some t ∧
      t.est.getFloat2 = some hq ∧
      alookup ([("X", 2), ("Y", 2)] : List (String × ℚ))
        ((topo_sort [tX, tY]).get ⟨0, by decide⟩) = some hq ∧
      alookup ([("X", 0), ("Y", 2)] : List (String × ℚ))
        ((topo_sort [tX, tY]).get ⟨0, by decide⟩) = some (listMax 0
        ((t.depends_on.filter
          (fun d => decide (d ∈ (topo_sort [tX, tY]).take 0))).map
          (fun d => (alookup ([("X", 0), ("Y", 2)] : List (String × ℚ)) d).getD 0 +
            (alookup ([("X", 2), ("Y", 2)] : List (String × ℚ)) d).getD 0))) := by
  have hres : buildDE [tX, tY] 0 (topo_sort [tX, tY]) [] [] =
      some ([("X", 2), ("Y", 2)], [("X", 0), ("Y", 2)]) := by
    simp [buildDE, topo_sort, kahnOrder, fuelOf, seeds, ind0, dictKeys,
      insertKey, initIndeg, indWeight, kahnRun, stepSuccs, relax, succsOf,
      dedupF, tmapFind, alookup, listMax, qmax, tX, tY, Est.getFloat2,
      List.find?]
  exact ⟨⟨hres, by decide⟩,
    C10_contributes_iff_earlier [tX, tY] 0 _ hres 0 (by decide)⟩

/-- C3: in Step 1 of `schedule_tasks`, every task processed in topological
order (reached by the Kahn loop) has earliest start equal to the maximum
end-instant over its dependencies present in the batch — references to
absent tasks are ignored — and every task with an empty `depends_on` has
earliest start equal to `start`. -/
theorem C3_earliest_start (tasks : List Task) (start : ℚ)
    (res : List (String × ℚ) × List (String × ℚ)) (t : Task)
    (hids : (tasks.map Task.id).Nodup)
    (hres : buildDE tasks start (topo_sort tasks) [] [] = some res)
    (ht : t ∈ tasks) :
    (t.id ∈ kahnOrder tasks →
      alookup res.2 t.id = some (listMax start
        ((t.depends_on.filter (fun d => decide (d ∈ tasks.map Task.id))).map
          (fun d => (alookup res.2 d).getD 0 + (alookup res.1 d).getD 0)))) ∧
    (t.depends_on = [] → alookup res.2 t.id = some start) := by
  have hmem : t.id ∈ topo_sort tasks :=
    mem_topo_sort.mpr (List.mem_map_of_mem Task.id ht)
  have hi : (topo_sort tasks).indexOf t.id < (topo_sort tasks).length :=
    List.indexOf_lt_length.mpr hmem
  have hget : (topo_sort tasks).get ⟨(topo_sort tasks).indexOf t.id, hi⟩ =
      t.id := List.indexOf_get hi
  obtain ⟨t2, hq, htm, hgf, hdur, hest⟩ := buildDE_run hres _ hi
  rw [hget] at htm hest
  have ht2 : t2 = t := by
    have := tmapFind_nodup hids ht
    rw [this] at htm
    exact (Option.some.injEq _ _).mp htm.symm
  subst ht2
  constructor
  · intro hko
    rw [hest]
    have hfil : t2.depends_on.filter
        (fun d => decide (d ∈ (topo_sort tasks).take
          ((topo_sort tasks).indexOf t2.id))) =
        t2.depends_on.filter (fun d => decide (d ∈ tasks.map Task.id)) := by
      apply List.filter_congr
      intro d hd
      have hiff : d ∈ (topo_sort tasks).take ((topo_sort tasks).indexOf t2.id) ↔
          d ∈ tasks.map Task.id := by
        constructor
        · intro hdt
          exact mem_topo_sort.mp (List.take_subset _ _ hdt)
        · intro hdm
          obtain ⟨hdko, hlt⟩ := kahnOrder_deps_found hids ht hko hd hdm
          have hstruct := topo_sort_structure hids
          have hidx_d : (topo_sort tasks).indexOf d =
              (kahnOrder tasks).indexOf d := by
            rw [hstruct]
            exact indexOf_append_left hdko
          have hidx_t : (topo_sort tasks).indexOf t2.id =
              (kahnOrder tasks).indexOf t2.id := by
            rw [hstruct]
            exact indexOf_append_left hko
          refine mem_take_of_indexOf_lt ?_ ?_
          · rw [hstruct]
            exact List.mem_append_left _ hdko
          · rw [hidx_d, hidx_t]
            exact hlt
      simp [hiff]
    rw [hfil]
  · intro hdep
    rw [hest, hdep]
    simp [listMax]

/-- Witness for C3 on the chain A ← B with start 0: the hypotheses hold and
the theorem applies at task B. -/
theorem C3_earliest_start_witness :
    (([tA, tB].map Task.id).Nodup ∧
      buildDE [tA, tB] 0 (topo_sort [tA, tB]) [] [] =
        some ([("A", 2), ("B", 2)], [("A", 0), ("B", 2)])) ∧
    ((tB.id ∈ kahnOrder [tA, tB] →
      alookup ([("A", 0), ("B", 2)] : List (String × ℚ)) tB.id =
        some (listMax 0
          ((tB.depends_on.filter
            (fun d => decide (d ∈ [tA, tB].map Task.id))).map
            (fun d =>
              (alookup ([("A", 0), ("B", 2)] : List (String × ℚ)) d).getD 0 +
              (alookup ([("A", 2), ("B", 2)] : List (String × ℚ)) d).getD 0)))) ∧
      (tB.depends_on = [] →
        alookup ([("A", 0), ("B", 2)] : List (String × ℚ)) tB.id = some 0)) := by
  have hres : buildDE [tA, tB] 0 (topo_sort [tA, tB]) [] [] =
      some ([("A", 2), ("B", 2)], [("A", 0), ("B", 2)]) := by
    simp [buildDE, topo_sort, kahnOrder, fuelOf, seeds, ind0, dictKeys,
      insertKey, initIndeg, indWeight, kahnRun, stepSuccs, relax, succsOf,
      dedupF, tmapFind, alookup, listMax, qmax, tA, tB, Est.getFloat2,
      List.find?]
  exact ⟨⟨by decide, hres⟩,
    C3_earliest_start [tA, tB] 0 _ tB (by decide) hres (by decide)⟩

/-- Witness for C8: among the dependency-free tasks A and D, batch order is
preserved in the output. -/
theorem C8_fifo_batch_order_witness :
    (([tA, tD].map Task.id).Nodup ∧
      [tA.id, tD.id].Sublist ([tA, tD].map Task.id)) ∧
    (topo_sort [tA, tD]).indexOf tA.id < (topo_sort [tA, tD]).indexOf tD.id :=
  ⟨⟨by decide, by decide⟩,
    C8_fifo_batch_order [tA, tD] (by decide) (List.mem_cons_self tA [tD])
      (List.mem_cons_of_mem tA (List.mem_cons_self tD []))
      (by decide) (by decide) (by decide)⟩

/-! ### The compression ratio and the final loop -/

theorem le_qmax_left (a b : ℚ) : a ≤ qmax a b := by
  rw [qmax_eq_max]
  exact le_max_left a b

theorem le_qmax_right (a b : ℚ) : b ≤ qmax a b := by
  rw [qmax_eq_max]
  exact le_max_right a b

theorem qmax_le {a b c : ℚ} (ha : a ≤ c) (hb : b ≤ c) : qmax a b ≤ c := by
  rw [qmax_eq_max]
  exact max_le ha hb

theorem getFloat1_of_numericOk {e : Est} (h : e.numericOk) :
    e.getFloat1 = some (estD e) := by
  cases e <;> simp [Est.numericOk] at h <;> simp [Est.getFloat1, estD]

theorem sumMaxH_eq (tasks : List Task) :
    ∀ l : List String,
      (∀ tid ∈ l, ∃ t, tmapFind tasks tid = some t ∧ t.est.numericOk) →
      sumMaxH tasks l =
        some ((l.map (fun tid => qmax (estD (taskEstOf tasks tid)) 1)).sum) := by
  intro l
  induction l with
  | nil => intro _; simp [sumMaxH]
  | cons tid rest ih =>
    intro hl
    obtain ⟨t, htm, hok⟩ := hl tid (List.mem_cons_self tid rest)
    have hrest := ih (fun x hx => hl x (List.mem_cons_of_mem tid hx))
    simp only [sumMaxH, htm, getFloat1_of_numericOk hok, hrest]
    have : taskEstOf tasks tid = t.est := by
      rw [taskEstOf, htm]
    rw [List.map_cons, List.sum_cons, this]

theorem sumMaxH_topo {tasks : List Task}
    (hids : (tasks.map Task.id).Nodup)
    (hnum : ∀ t ∈ tasks, t.est.numericOk) :
    sumMaxH tasks (topo_sort tasks) = some (demandHoursSpec tasks) := by
  have hhyp : ∀ tid ∈ topo_sort tasks,
      ∃ t, tmapFind tasks tid = some t ∧ t.est.numericOk := by
    intro tid hmem
    obtain ⟨t, ht, rfl⟩ := List.mem_map.mp (mem_topo_sort.mp hmem)
    exact ⟨t, tmapFind_nodup hids ht, hnum t ht⟩
  rw [sumMaxH_eq tasks _ hhyp]
  congr 1
  have hperm := (topo_sort_perm hids).map
    (fun tid => qmax (estD (taskEstOf tasks tid)) 1)
  rw [hperm.sum_eq, List.map_map, demandHoursSpec]
  congr 1
  apply List.map_congr_left
  intro t ht
  simp only [Function.comp_apply]
  rw [taskEstOf, tmapFind_nodup hids ht]

theorem demand_pos {tasks : List Task} (hne : tasks ≠ []) :
    1 ≤ demandHoursSpec tasks := by
  match tasks with
  | [] => exact absurd rfl hne
  | t :: rest =>
    rw [demandHoursSpec, List.map_cons, List.sum_cons]
    have h1 : (1 : ℚ) ≤ qmax (estD t.est) 1 := le_qmax_right _ _
    have h2 : 0 ≤ (rest.map (fun t => qmax (estD t.est) 1)).sum := by
      apply List.sum_nonneg
      intro x hx
      obtain ⟨s, _, rfl⟩ := List.mem_map.mp hx
      exact le_trans zero_le_one (le_qmax_right _ _)
    linarith

theorem computeRatio_ge {tasks : List Task} {order : List String}
    {dur est : List (String × ℚ)} {start : ℚ} {deadline : Option ℚ}
    {whpd : ℤ} {r : ℚ}
    (h : computeRatio tasks order dur est start deadline whpd = some r) :
    1 / 4 ≤ r := by
  simp only [computeRatio] at h
  split at h
  · cases h
    norm_num
  · split at h
    · split at h
      · simp at h
      · split at h
        · simp at h
        · cases h
          exact le_qmax_right _ _
    · cases h
      norm_num

theorem computeRatio_of_gt {tasks : List Task} {order : List String}
    {dur est : List (String × ℚ)} {start dl tot : ℚ} {whpd : ℤ}
    (hgt : naiveEnd order dur est start > dl)
    (htot : sumMaxH tasks order = some tot) (htot0 : tot ≠ 0) :
    computeRatio tasks order dur est start (some dl) whpd =
      some (qmax ((availHours start dl whpd : ℚ) / tot) (1 / 4)) := by
  simp only [computeRatio, if_pos hgt, htot, if_neg htot0]

theorem computeRatio_of_le {tasks : List Task} {order : List String}
    {dur est : List (String × ℚ)} {start dl : ℚ} {whpd : ℤ}
    (hle : ¬ naiveEnd order dur est start > dl) :
    computeRatio tasks order dur est start (some dl) whpd = some 1 := by
  simp only [computeRatio, if_neg hle]

theorem finalLoop_entries (tasks : List Task) (est : List (String × ℚ))
    (ratio : ℚ) :
    ∀ (l : List String) (out : List SchedEntry),
      finalLoop tasks est ratio l = some out →
      ∀ en ∈ out, ∃ t h0, tmapFind tasks en.id = some t ∧
        t.est.getFloat1 = some h0 ∧ alookup est en.id = some en.sInst ∧
        en.eInst = en.sInst + qmax h0 1 * ratio ∧
        en.start_date = dateOf en.sInst ∧ en.end_date = dateOf en.eInst ∧
        en.duration_hours = round1 (qmax h0 1 * ratio) := by
  intro l
  induction l with
  | nil =>
    intro out h en hen
    simp only [finalLoop] at h
    cases h
    simp at hen
  | cons tid rest ih =>
    intro out h en hen
    simp only [finalLoop] at h
    split at h
    · simp at h
    · rename_i t htm
      split at h
      · simp at h
      · rename_i h0 hgf
        split at h
        · simp at h
        · rename_i s hs
          split at h
          · simp at h
          · rename_i out2 hrec
            cases h
            rcases List.mem_cons.mp hen with rfl | hen2
            · exact ⟨t, h0, htm, hgf, hs, rfl, rfl, rfl, rfl⟩
            · exact ih out2 hrec en hen2

theorem finalLoop_starts (tasks : List Task) (est : List (String × ℚ))
    (r1 r2 : ℚ) :
    ∀ (l : List String) (out1 out2 : List SchedEntry),
      finalLoop tasks est r1 l = some out1 →
      finalLoop tasks est r2 l = some out2 →
      out1.map (fun en => (en.id, en.name, en.sInst, en.start_date)) =
        out2.map (fun en => (en.id, en.name, en.sInst, en.start_date)) := by
  intro l
  induction l with
  | nil =>
    intro out1 out2 h1 h2
    simp only [finalLoop] at h1 h2
    cases h1
    cases h2
    rfl
  | cons tid rest ih =>
    intro out1 out2 h1 h2
    simp only [finalLoop] at h1 h2
    split at h1
    · simp at h1
    · rename_i t htm
      simp only [htm] at h2
      split at h1
      · simp at h1
      · rename_i h0 hgf
        simp only [hgf] at h2
        split at h1
        · simp at h1
        · rename_i s hs
          simp only [hs] at h2
          split at h1
          · simp at h1
          · rename_i o1 hr1
            split at h2
            · simp at h2
            · rename_i o2 hr2
              cases h1
              cases h2
              simp only [List.map_cons]
              rw [ih o1 o2 hr1 hr2]

theorem schedule_tasks_parts {tasks : List Task} {start : ℚ}
    {deadline : Option ℚ} {whpd : ℤ} {out : List SchedEntry}
    (h : schedule_tasks tasks start deadline whpd = some out) :
    ∃ dur est ratio,
      buildDE tasks start (topo_sort tasks) [] [] = some (dur, est) ∧
      computeRatio tasks (topo_sort tasks) dur est start deadline whpd =
        some ratio ∧
      finalLoop tasks est ratio (topo_sort tasks) = some out := by
  simp only [schedule_tasks] at h
  split at h
  · simp at h
  · rename_i dur est2 hDE
    split at h
    · simp at h
    · rename_i ratio hR
      exact ⟨dur, est2, ratio, hDE, hR, h⟩

theorem dateOf_mono {a b : ℚ} (h : a ≤ b) : dateOf a ≤ dateOf b := by
  apply Int.floor_le_floor
  exact (div_le_div_right (by norm_num : (0:ℚ) < 24)).mpr h

theorem demand_nonneg (tasks : List Task) : 0 ≤ demandHoursSpec tasks := by
  apply List.sum_nonneg
  intro x hx
  obtain ⟨s, _, rfl⟩ := List.mem_map.mp hx
  exact le_trans zero_le_one (le_qmax_right _ _)

/-! ### Claim theorems about the calendar scheduler -/

/-- C9: every entry of a successful `schedule_tasks` run has its end instant
no earlier than its start instant and a rendered duration of at least a
quarter hour — the duration is `max(estimated_hours, 1) * ratio` with the
ratio floored at `0.25` — and hence an end date no earlier than its start
date. -/
theorem C9_entry_bounds (tasks : List Task) (start : ℚ)
    (deadline : Option ℚ) (whpd : ℤ) (out : List SchedEntry)
    (h : schedule_tasks tasks start deadline whpd = some out) :
    ∀ en ∈ out, en.sInst ≤ en.eInst ∧ 1 / 4 ≤ en.eInst - en.sInst ∧
      en.start_date ≤ en.end_date := by
  obtain ⟨dur, est2, ratio, hDE, hR, hFL⟩ := schedule_tasks_parts h
  have hr := computeRatio_ge hR
  intro en hen
  obtain ⟨t, h0, htm, hgf, hs, he, hsd, hed, hdur⟩ :=
    finalLoop_entries tasks est2 ratio _ out hFL en hen
  have h1 : (1 : ℚ) ≤ qmax h0 1 := le_qmax_right _ _
  have hprod : 1 / 4 ≤ qmax h0 1 * ratio := by
    calc (1 / 4 : ℚ) = 1 * (1 / 4) := by norm_num
    _ ≤ qmax h0 1 * ratio :=
      mul_le_mul h1 hr (by norm_num) (le_trans zero_le_one h1)
  refine ⟨?_, ?_, ?_⟩
  · rw [he]
    linarith
  · rw [he]
    linarith
  · rw [hsd, hed]
    apply dateOf_mono
    rw [he]
    linarith

/-- Witness for C9 on a single 2-hour task without deadline. -/
theorem C9_entry_bounds_witness :
    schedule_tasks [tA] 0 none 6 =
      some [⟨"A", "A", 0, 2, 0, 0, 2⟩] ∧
    ((⟨"A", "A", 0, 2, 0, 0, 2⟩ : SchedEntry).sInst ≤
        (⟨"A", "A", 0, 2, 0, 0, 2⟩ : SchedEntry).eInst ∧
      1 / 4 ≤ (⟨"A", "A", 0, 2, 0, 0, 2⟩ : SchedEntry).eInst -
        (⟨"A", "A", 0, 2, 0, 0, 2⟩ : SchedEntry).sInst ∧
      (⟨"A", "A", 0, 2, 0, 0, 2⟩ : SchedEntry).start_date ≤
        (⟨"A", "A", 0, 2, 0, 0, 2⟩ : SchedEntry).end_date) := by
  have hsched : schedule_tasks [tA] 0 none 6 =
      some [⟨"A", "A", 0, 2, 0, 0, 2⟩] := by
    simp [schedule_tasks, topo_sort, kahnOrder, fuelOf, seeds, ind0, dictKeys,
      insertKey, initIndeg, indWeight, kahnRun, stepSuccs, relax, succsOf,
      dedupF, buildDE, tmapFind, alookup, listMax, qmax, naiveEnd, sumMaxH,
      availHours, computeRatio, rhe, round1, dateOf, finalLoop, Est.getFloat2,
      Est.getFloat1, tA, List.find?] <;> norm_num [Int.fract]
  exact ⟨hsched, C9_entry_bounds [tA] 0 none 6 _ hsched _
    (List.mem_cons_self _ _)⟩

/-- C6: deadline compression is a pure frame effect on durations — every
entry's start instant is the Step-1 earliest start (looked up in the `est`
dict built with uncompressed durations), and the id, name, start instant
and start date of each entry agree with those of the run without a
deadline; only durations and end instants may change. -/
theorem C6_starts_unchanged (tasks : List Task) (start dl : ℚ) (whpd : ℤ)
    (out outN : List SchedEntry)
    (h1 : schedule_tasks tasks start (some dl) whpd = some out)
    (h2 : schedule_tasks tasks start none whpd = some outN) :
    (∃ dur est2, buildDE tasks start (topo_sort tasks) [] [] =
        some (dur, est2) ∧
      ∀ en ∈ out, alookup est2 en.id = some en.sInst) ∧
    out.map (fun en => (en.id, en.name, en.sInst, en.start_date)) =
      outN.map (fun en => (en.id, en.name, en.sInst, en.start_date)) := by
  obtain ⟨d1, e1, r1, hDE1, hR1, hFL1⟩ := schedule_tasks_parts h1
  obtain ⟨d2, e2, r2, hDE2, hR2, hFL2⟩ := schedule_tasks_parts h2
  have hpair : d1 = d2 ∧ e1 = e2 := by
    rw [hDE1] at hDE2
    have := (Option.some.injEq _ _).mp hDE2
    exact ⟨congrArg Prod.fst this, congrArg Prod.snd this⟩
  obtain ⟨hd, he⟩ := hpair
  subst hd
  subst he
  constructor
  · refine ⟨d1, e1, hDE1, ?_⟩
    intro en hen
    obtain ⟨t, h0, _, _, hs, _⟩ := finalLoop_entries tasks e1 r1 _ out hFL1 en hen
    exact hs
  · exact finalLoop_starts tasks e1 r1 r2 _ out outN hFL1 hFL2

/-- Witness for C6: a chain of two tasks with a tight deadline (ratio 0.5)
against the no-deadline run. -/
theorem C6_starts_unchanged_witness :
    (schedule_tasks [tA, tB] 0 (some 1) 6 =
        some [⟨"A", "A", 0, 3, 0, 0, 3⟩, ⟨"B", "B", 2, 5, 0, 0, 3⟩] ∧
      schedule_tasks [tA, tB] 0 none 6 =
        some [⟨"A", "A", 0, 2, 0, 0, 2⟩, ⟨"B", "B", 2, 4, 0, 0, 2⟩]) ∧
    ((∃ dur est2, buildDE [tA, tB] 0 (topo_sort [tA, tB]) [] [] =
        some (dur, est2) ∧
      ∀ en ∈ [(⟨"A", "A", 0, 3, 0, 0, 3⟩ : SchedEntry),
          ⟨"B", "B", 2, 5, 0, 0, 3⟩], alookup est2 en.id = some en.sInst) ∧
    ([(⟨"A", "A", 0, 3, 0, 0, 3⟩ : SchedEntry), ⟨"B", "B", 2, 5, 0, 0, 3⟩].map
        (fun en => (en.id, en.name, en.sInst, en.start_date)) =
      [(⟨"A", "A", 0, 2, 0, 0, 2⟩ : SchedEntry), ⟨"B", "B", 2, 4, 0, 0, 2⟩].map
        (fun en => (en.id, en.name, en.sInst, en.start_date)))) := by
  have hs1 : schedule_tasks [tA, tB] 0 (some 1) 6 =
      some [⟨"A", "A", 0, 3, 0, 0, 3⟩, ⟨"B", "B", 2, 5, 0, 0, 3⟩] := by
    simp [schedule_tasks, topo_sort, kahnOrder, fuelOf, seeds, ind0, dictKeys,
      insertKey, initIndeg, indWeight, kahnRun, stepSuccs, relax, succsOf,
      dedupF, buildDE, tmapFind, alookup, listMax, qmax, naiveEnd, sumMaxH,
      availHours, computeRatio, rhe, round1, dateOf, finalLoop, Est.getFloat2,
      Est.getFloat1, tA, tB, List.find?] <;> norm_num [rhe]
  have hs2 : schedule_tasks [tA, tB] 0 none 6 =
      some [⟨"A", "A", 0, 2, 0, 0, 2⟩, ⟨"B", "B", 2, 4, 0, 0, 2⟩] := by
    simp [schedule_tasks, topo_sort, kahnOrder, fuelOf, seeds, ind0, dictKeys,
      insertKey, initIndeg, indWeight, kahnRun, stepSuccs, relax, succsOf,
      dedupF, buildDE, tmapFind, alookup, listMax, qmax, naiveEnd, sumMaxH,
      availHours, computeRatio, rhe, round1, dateOf, finalLoop, Est.getFloat2,
      Est.getFloat1, tA, tB, List.find?] <;> norm_num [rhe]
  exact ⟨⟨hs1, hs2⟩, C6_starts_unchanged [tA, tB] 0 1 6 _ _ hs1 hs2⟩

/-- C4: when a deadline is given and the naive completion instant (maximum
end instant under uncompressed durations) exceeds it, the ratio equals
`max(available_hours / demand_hours, 0.25)` with
`available_hours = max(days_between(start, deadline), 1) * work_hours_per_day`
and `demand_hours` the batch sum of `max(estimated_hours, 1)` (the code's
sum over the order equals the spec's sum over the batch); with no deadline
or a fitting plan the ratio is `1`; and in the compressed case no rendered
duration falls below `estimated_hours * 0.25`. -/
theorem C4_ratio_spec (tasks : List Task) (start dl : ℚ) (whpd : ℤ)
    (dur est2 : List (String × ℚ))
    (hids : (tasks.map Task.id).Nodup)
    (hnum : ∀ t ∈ tasks, t.est.numericOk)
    (hne : tasks ≠ [])
    (hDE : buildDE tasks start (topo_sort tasks) [] [] = some (dur, est2)) :
    (naiveEnd (topo_sort tasks) dur est2 start > dl →
      computeRatio tasks (topo_sort tasks) dur est2 start (some dl) whpd =
        some (max ((availHours start dl whpd : ℚ) / demandHoursSpec tasks)
          (1 / 4))) ∧
    (¬ naiveEnd (topo_sort tasks) dur est2 start > dl →
      computeRatio tasks (topo_sort tasks) dur est2 start (some dl) whpd =
        some 1) ∧
    computeRatio tasks (topo_sort tasks) dur est2 start none whpd = some 1 ∧
    (∀ out, schedule_tasks tasks start (some dl) whpd = some out →
      ∀ en ∈ out, ∀ t ∈ tasks, en.id = t.id →
        estD t.est * (1 / 4) ≤ en.eInst - en.sInst) := by
  have htot := sumMaxH_topo hids hnum
  have hpos : (0 : ℚ) < demandHoursSpec tasks :=
    lt_of_lt_of_le zero_lt_one (demand_pos hne)
  refine ⟨?_, ?_, ?_, ?_⟩
  · intro hgt
    rw [computeRatio_of_gt hgt htot (by linarith), qmax_eq_max]
  · exact fun hle => computeRatio_of_le hle
  · simp [computeRatio]
  · intro out hout en hen t ht hid
    obtain ⟨dur2, est3, ratio, hDE2, hR, hFL⟩ := schedule_tasks_parts hout
    have hr := computeRatio_ge hR
    obtain ⟨t2, h0, htm, hgf, hs, he, _, _, _⟩ :=
      finalLoop_entries tasks est3 ratio _ out hFL en hen
    rw [hid, tmapFind_nodup hids ht] at htm
    have ht2 : t = t2 := (Option.some.injEq _ _).mp htm
    subst ht2
    rw [getFloat1_of_numericOk (hnum t ht)] at hgf
    have hh0 : estD t.est = h0 := (Option.some.injEq _ _).mp hgf
    subst hh0
    rw [he]
    have hgoal : estD t.est * (1 / 4) ≤ qmax (estD t.est) 1 * ratio := by
      by_cases hq : 0 ≤ estD t.est
      · calc estD t.est * (1 / 4) ≤ estD t.est * ratio :=
            mul_le_mul_of_nonneg_left hr hq
        _ ≤ qmax (estD t.est) 1 * ratio := by
            apply mul_le_mul_of_nonneg_right (le_qmax_left _ _)
            linarith
      · have h1 : estD t.est * (1 / 4) ≤ 0 := by nlinarith
        have h2 : (1 : ℚ) ≤ qmax (estD t.est) 1 := le_qmax_right _ _
        nlinarith
    linarith

/-- Witness for C4: one 2-hour task, deadline one hour away, six work hours
per day. -/
theorem C4_ratio_spec_witness :
    (([tA].map Task.id).Nodup ∧ (∀ t ∈ [tA], t.est.numericOk) ∧
      buildDE [tA] 0 (topo_sort [tA]) [] [] =
        some ([("A", 2)], [("A", 0)])) ∧
    ((naiveEnd (topo_sort [tA]) [("A", 2)] [("A", 0)] 0 > 1 →
      computeRatio [tA] (topo_sort [tA]) [("A", 2)] [("A", 0)] 0 (some 1) 6 =
        some (max ((availHours 0 1 6 : ℚ) / demandHoursSpec [tA]) (1 / 4))) ∧
    (¬ naiveEnd (topo_sort [tA]) [("A", 2)] [("A", 0)] 0 > 1 →
      computeRatio [tA] (topo_sort [tA]) [("A", 2)] [("A", 0)] 0 (some 1) 6 =
        some 1) ∧
    computeRatio [tA] (topo_sort [tA]) [("A", 2)] [("A", 0)] 0 none 6 =
      some 1 ∧
    (∀ out, schedule_tasks [tA] 0 (some 1) 6 = some out →
      ∀ en ∈ out, ∀ t ∈ [tA], en.id = t.id →
        estD t.est * (1 / 4) ≤ en.eInst - en.sInst)) := by
  have hDE : buildDE [tA] 0 (topo_sort [tA]) [] [] =
      some ([("A", 2)], [("A", 0)]) := by
    simp [buildDE, topo_sort, kahnOrder, fuelOf, seeds, ind0, dictKeys,
      insertKey, initIndeg, indWeight, kahnRun, stepSuccs, relax, succsOf,
      dedupF, tmapFind, alookup, listMax, qmax, tA, Est.getFloat2,
      List.find?]
  exact ⟨⟨by decide, by decide, hDE⟩,
    C4_ratio_spec [tA] 0 1 6 _ _ (by decide) (by decide) (by decide) hDE⟩

/-- C7 counterexample: the claim that the ratio is always at most 1 fails —
for a single 2-hour task, a deadline one hour after the start and six work
hours per day, the floored day count yields 6 available hours against a
demand of 2, so the ratio is 3 and the rendered duration is 6, exceeding
`max(estimated_hours, 1) = 2`. -/
theorem C7_ratio_counterexample :
    computeRatio [tA] (topo_sort [tA]) [("A", 2)] [("A", 0)] 0 (some 1) 6 =
      some 3 ∧
    ¬ ((3 : ℚ) ≤ 1) ∧
    (schedule_tasks [tA] 0 (some 1) 6).map
      (List.map SchedEntry.duration_hours) = some [6] ∧
    ¬ ((6 : ℚ) ≤ qmax 2 1) := by
  refine ⟨?_, by norm_num, ?_, ?_⟩
  · simp [computeRatio, naiveEnd, sumMaxH, tmapFind, alookup, listMax, qmax,
      availHours, tA, Est.getFloat1, topo_sort, kahnOrder, fuelOf, seeds,
      ind0, dictKeys, insertKey, initIndeg, indWeight, kahnRun, stepSuccs,
      relax, succsOf, dedupF, List.find?] <;> norm_num
  · simp [schedule_tasks, topo_sort, kahnOrder, fuelOf, seeds, ind0, dictKeys,
      insertKey, initIndeg, indWeight, kahnRun, stepSuccs, relax, succsOf,
      dedupF, buildDE, tmapFind, alookup, listMax, qmax, naiveEnd, sumMaxH,
      availHours, computeRatio, rhe, round1, dateOf, finalLoop, Est.getFloat2,
      Est.getFloat1, tA, List.find?] <;> norm_num
  · norm_num [qmax]

/-- C7 amended: the compression ratio is at most 1 whenever the available
hours do not exceed the demand hours (the typical compressed situation); in
that case no rendered duration exceeds `max(estimated_hours, 1)`.  Without
that proviso the ratio can exceed 1 (see the counterexample), because the
floored day count can make `available_hours` larger than the demand even
though the naive chain misses the deadline. -/
theorem C7_ratio_le_one_amended (tasks : List Task) (start dl : ℚ)
    (whpd : ℤ) (out : List SchedEntry)
    (hids : (tasks.map Task.id).Nodup)
    (hnum : ∀ t ∈ tasks, t.est.numericOk)
    (h : schedule_tasks tasks start (some dl) whpd = some out)
    (hcover : (availHours start dl whpd : ℚ) ≤ demandHoursSpec tasks) :
    ∃ dur est2 ratio,
      buildDE tasks start (topo_sort tasks) [] [] = some (dur, est2) ∧
      computeRatio tasks (topo_sort tasks) dur est2 start (some dl) whpd =
        some ratio ∧
      ratio ≤ 1 ∧
      ∀ en ∈ out, ∀ t ∈ tasks, en.id = t.id →
        en.eInst - en.sInst ≤ qmax (estD t.est) 1 := by
  obtain ⟨dur, est2, ratio, hDE, hR, hFL⟩ := schedule_tasks_parts h
  have htot := sumMaxH_topo hids hnum
  have hr14 := computeRatio_ge hR
  have hratio1 : ratio ≤ 1 := by
    simp only [computeRatio] at hR
    split at hR
    · split at hR
      · simp at hR
      · rename_i tot htot2
        split at hR
        · simp at hR
        · rename_i htot0
          rw [htot] at htot2
          have htoteq : demandHoursSpec tasks = tot :=
            (Option.some.injEq _ _).mp htot2
          have htotpos : 0 < tot := by
            rcases lt_or_eq_of_le (htoteq ▸ demand_nonneg tasks) with h2 | h2
            · exact h2
            · exact absurd h2.symm htot0
          have hdiv : (availHours start dl whpd : ℚ) / tot ≤ 1 :=
            (div_le_one htotpos).mpr (htoteq ▸ hcover)
          cases hR
          exact qmax_le hdiv (by norm_num)
    · cases hR
      exact le_refl 1
  refine ⟨dur, est2, ratio, hDE, hR, hratio1, ?_⟩
  intro en hen t ht hid
  obtain ⟨t2, h0, htm, hgf, hs, he, _, _, _⟩ :=
    finalLoop_entries tasks est2 ratio _ out hFL en hen
  rw [hid, tmapFind_nodup hids ht] at htm
  have ht2 : t = t2 := (Option.some.injEq _ _).mp htm
  subst ht2
  rw [getFloat1_of_numericOk (hnum t ht)] at hgf
  have hh0 : estD t.est = h0 := (Option.some.injEq _ _).mp hgf
  subst hh0
  rw [he]
  have h1 : (0 : ℚ) ≤ qmax (estD t.est) 1 :=
    le_trans zero_le_one (le_qmax_right _ _)
  nlinarith

/-- Witness for C7's amended statement: chain A ← B ← C against a one-day
deadline with six work hours per day — available 6, demand 6, ratio 0.5
after the naive 6-hour chain overruns the 24-hour instant?  Here the naive
chain (6 h) fits within 24 h, so the ratio is 1 and durations are
uncompressed. -/
theorem C7_ratio_le_one_amended_witness :
    ((([tA, tB, tC].map Task.id).Nodup ∧ ∀ t ∈ [tA, tB, tC], t.est.numericOk) ∧
      schedule_tasks [tA, tB, tC] 0 (some 24) 6 =
        some [⟨"A", "A", 0, 2, 0, 0, 2⟩, ⟨"B", "B", 2, 4, 0, 0, 2⟩,
          ⟨"C", "C", 4, 6, 0, 0, 2⟩] ∧
      (availHours 0 24 6 : ℚ) ≤ demandHoursSpec [tA, tB, tC]) ∧
    ∃ dur est2 ratio,
      buildDE [tA, tB, tC] 0 (topo_sort [tA, tB, tC]) [] [] =
        some (dur, est2) ∧
      computeRatio [tA, tB, tC] (topo_sort [tA, tB, tC]) dur est2 0
        (some 24) 6 = some ratio ∧
      ratio ≤ 1 ∧
      ∀ en ∈ [(⟨"A", "A", 0, 2, 0, 0, 2⟩ : SchedEntry),
          ⟨"B", "B", 2, 4, 0, 0, 2⟩, ⟨"C", "C", 4, 6, 0, 0, 2⟩],
        ∀ t ∈ [tA, tB, tC], en.id = t.id →
          en.eInst - en.sInst ≤ qmax (estD t.est) 1 := by
  have hsched : schedule_tasks [tA, tB, tC] 0 (some 24) 6 =
      some [⟨"A", "A", 0, 2, 0, 0, 2⟩, ⟨"B", "B", 2, 4, 0, 0, 2⟩,
        ⟨"C", "C", 4, 6, 0, 0, 2⟩] := by
    simp [schedule_tasks, topo_sort, kahnOrder, fuelOf, seeds, ind0, dictKeys,
      insertKey, initIndeg, indWeight, kahnRun, stepSuccs, relax, succsOf,
      dedupF, buildDE, tmapFind, alookup, listMax, qmax, naiveEnd, sumMaxH,
      availHours, computeRatio, rhe, round1, dateOf, finalLoop, Est.getFloat2,
      Est.getFloat1, tA, tB, tC, List.find?] <;> norm_num
  have hcover : (availHours 0 24 6 : ℚ) ≤ demandHoursSpec [tA, tB, tC] := by
    norm_num [availHours, demandHoursSpec, estD, qmax, tA, tB, tC]
  exact ⟨⟨⟨by decide, by decide⟩, hsched, hcover⟩,
    C7_ratio_le_one_amended [tA, tB, tC] 0 24 6 _ (by decide) (by decide)
      hsched hcover⟩

/-- C5: the claim that `topo_sort` and `schedule_tasks` never raise is
false on three batches the claim explicitly covers: a non-numeric
`estimated_hours` reaches `float(...)` unguarded (Python `ValueError`), an
explicit `None` estimate reaches the final loop's `float(...)` without the
`or 2` fallback (`TypeError`), and an empty batch whose deadline lies
before the start divides the available hours by the empty demand sum
(`ZeroDivisionError`).  The embedding returns `none` (a raised exception)
on each. -/
theorem C5_schedule_raises :
    schedule_tasks [⟨"T1", none, Est.nonnum, []⟩] 0 none 6 = none ∧
    schedule_tasks [⟨"T1", none, Est.pynone, []⟩] 0 none 6 = none ∧
    schedule_tasks [] 1 (some 0) 6 = none := by
  refine ⟨by decide, ?_, by decide⟩
  simp [schedule_tasks, topo_sort, kahnOrder, fuelOf, seeds, ind0, dictKeys,
    insertKey, initIndeg, indWeight, kahnRun, stepSuccs, relax, succsOf,
    dedupF, buildDE, tmapFind, alookup, listMax, qmax, naiveEnd, sumMaxH,
    availHours, computeRatio, rhe, round1, dateOf, finalLoop, Est.getFloat2,
    Est.getFloat1, List.find?]

end SmartTaskPlanner
